import Mathlib

/-
Verification of the in-memory virtual file system (mem-vfs).

This file shallowly embeds the core of the implementation:
  * the path layer: `normalizePath`, `dirname`, `basename`, `join2`,
    `splitPath`, `validatePath`, `resolvePath` (src/path/path-normalizer.ts,
    path-validator.ts, path-resolver.ts);
  * the node tree (`VNode`), the `VirtualFileSystem` state (`VFS`), and the
    traversal/symlink resolver `resolveLocFuel`/`walkLoc`
    (src/core/vfs.ts `resolveNode`);
  * the public operations `readFile`, `writeFile` (plus its temp-suffix atomic
    mode), `appendFile`, `deleteFile`, `createDirectory`, `deleteDirectory`,
    `existsPath` (source `exists`), `copyFile`, `moveFile`, `createSymlink`;
  * snapshots (`createSnapshot`, `restoreSnapshot`) and the diff engine
    (`diffChildren` embedding `computeDiff`);
  * the glob engine (`gtokenize`/`gmatch` embedding `patternToRegex` and
    `RegExp.test`, and `globTraverse`/`globKids` embedding `glob`'s `traverse`).

Modelling conventions:
  * JavaScript strings are `List Char` (`Str`); `str` injects Lean string
    literals.  File contents (`Buffer`) are `List Nat` byte lists.
  * `Map` objects (directory children, snapshots) are association lists in
    insertion order; `Map.get`/`set`/`delete` are `getChild`/`setChild`/
    `removeChild` (`assocGet`/`assocSet` for snapshots), which reproduce the
    replace-in-place / append-at-end behaviour of `Map.set`.
  * In the source, tree nodes are heap objects mutated through references.
    Here the resolver returns the *location* of a node (the list of child
    names from the root); reading/writing "through a node reference" is
    `nodeAt`/`setNodeAt` at that location.  Because every non-root node has
    exactly one parent edge, locations are in bijection with live nodes.
  * `resolveNode`'s recursion is depth-guarded by `maxSymlinkDepth`; the
    embedding adds an explicit fuel argument that decreases on every nested
    call.  `resolveLoc` starts with fuel `maxSymlinkDepth + 2 - depth`, so
    fuel can only reach 0 at `depth = maxSymlinkDepth + 2`, where the fuel-out
    branch throws `symlinkLoop` exactly as the source's depth guard would;
    hence the fuel never changes the computed value.
  * Metadata (timestamps, mode, uid, gid) and the watcher layer are not
    modelled: no claim refers to them, and `touch`/`markModified` do not
    affect any value a claim mentions.
  * Operations return `VFS × Except VErr α`: the source mutates `this` and
    throws; a thrown error leaves all mutations made so far in place, which
    the pair preserves.
-/

/- ===================== strings ===================== -/

abbrev Str := List Char

def str (s : String) : Str := s.data

instance {e a : Type} [DecidableEq e] [DecidableEq a] : DecidableEq (Except e a)
  | .error x, .error y => decidable_of_iff (x = y) (by simp)
  | .error _, .ok _ => isFalse (by simp)
  | .ok _, .error _ => isFalse (by simp)
  | .ok x, .ok y => decidable_of_iff (x = y) (by simp)

/- ===================== path normalizer ===================== -/

/-- `inputPath.replace(/\\/g, '/')` -/
def replBS (p : Str) : Str := p.map (fun c => if c = '\\' then '/' else c)

/-- `normalized.replace(/\/+/g, '/')` -/
def collapse : Str → Str
  | [] => []
  | c :: rest =>
    if c = '/' ∧ rest.head? = some '/' then collapse rest
    else c :: collapse rest

/-- `s.split('/')` with JavaScript semantics: n separators yield n+1 pieces. -/
def splitSlash : Str → List Str
  | [] => [[]]
  | c :: rest =>
    if c = '/' then [] :: splitSlash rest
    else
      match splitSlash rest with
      | p :: ps => (c :: p) :: ps
      | [] => [[c]]

/-- The `'..'` segment. -/
def dd : Str := ['.', '.']

/-- The `for (const part of parts)` stack loop of `normalizePath`.  The stack
is kept reversed: the head is the top (the last pushed element). -/
def procParts (isAbs : Bool) : List Str → List Str → List Str
  | [], st => st
  | p :: rest, st =>
    if p = [] ∨ p = ['.'] then procParts isAbs rest st
    else if p = dd then
      match st with
      | t :: st' =>
        if t ≠ dd then procParts isAbs rest st'
        else if isAbs then procParts isAbs rest (t :: st')
        else procParts isAbs rest (dd :: t :: st')
      | [] =>
        if isAbs then procParts isAbs rest []
        else procParts isAbs rest [dd]
    else procParts isAbs rest (p :: st)

/-- `stack.join('/')` -/
def joinSegs : List Str → Str
  | [] => []
  | [s] => s
  | s :: rest => s ++ '/' :: joinSegs rest

/-- `normalizePath` from src/path/path-normalizer.ts. -/
def normalizePath (p : Str) : Str :=
  if p = [] then ['/']
  else
    let n := collapse (replBS p)
    let isAbs : Bool := n.head? = some '/'
    let parts := splitSlash n
    let st := procParts isAbs parts []
    let core := joinSegs st.reverse
    let result := if isAbs then '/' :: core else core
    if result = [] then (if isAbs then ['/'] else ['.']) else result

def lastSlashIdxAux : Str → Nat → Option Nat → Option Nat
  | [], _, acc => acc
  | c :: rest, i, acc => lastSlashIdxAux rest (i + 1) (if c = '/' then some i else acc)

/-- `s.lastIndexOf('/')` (`none` for -1). -/
def lastSlashIdx (l : Str) : Option Nat := lastSlashIdxAux l 0 none

/-- `dirname` from src/path/path-normalizer.ts. -/
def dirname (p : Str) : Str :=
  let n := normalizePath p
  if n = ['/'] then ['/']
  else
    match lastSlashIdx n with
    | none => ['.']
    | some 0 => ['/']
    | some i => n.take i

/-- `basename` (without the optional extension argument, which no modelled
call site uses). -/
def basename (p : Str) : Str :=
  let n := normalizePath p
  if n = ['/'] then []
  else
    match lastSlashIdx n with
    | none => n
    | some i => n.drop (i + 1)

/-- `join(a, b)` — the two-argument use of the variadic `join`: empty parts
are skipped, the rest are joined with `'/'` and normalized. -/
def join2 (a b : Str) : Str :=
  normalizePath (if a = [] then b else if b = [] then a else a ++ '/' :: b)

/-- `splitPath` from src/path/path-normalizer.ts
(`normalized.split('/').filter(Boolean)`). -/
def splitPath (p : Str) : List Str :=
  (splitSlash (normalizePath p)).filter (fun s => s ≠ [])

/- ===================== path validator ===================== -/

/-- Error taxonomy (src/errors/file-system-errors.ts), restricted to the kinds
the modelled operations raise. -/
inductive VErr where
  | invalidPath
  | fileNotFound
  | directoryNotFound
  | notAFile
  | notADirectory
  | notASymlink
  | directoryNotEmpty
  | fileAlreadyExists
  | symlinkLoop
  | snapshotNotFound
deriving DecidableEq, Repr

/-- `/[\x00-\x1f]/` -/
def isCtl (c : Char) : Bool := c.toNat ≤ 31

/-- `RESERVED_NAMES` from src/path/path-validator.ts. -/
def reservedNames : List Str :=
  [str "CON", str "PRN", str "AUX", str "NUL",
   str "COM1", str "COM2", str "COM3", str "COM4", str "COM5",
   str "COM6", str "COM7", str "COM8", str "COM9",
   str "LPT1", str "LPT2", str "LPT3", str "LPT4", str "LPT5",
   str "LPT6", str "LPT7", str "LPT8", str "LPT9"]

/-- `validatePathSegment`: length bound, reserved names (case-insensitive,
characters before the first `'.'`), no trailing space or period. -/
def segValid (s : Str) : Bool :=
  decide (s.length ≤ 255) &&
  !(reservedNames.contains ((s.map Char.toUpper).takeWhile (fun c => c ≠ '.'))) &&
  !(s.getLast? = some ' ') && !(s.getLast? = some '.')

/-- `validatePath` from src/path/path-validator.ts.  All of its failure modes
raise `InvalidPathError`, so the error payload is always `invalidPath`. -/
def validatePath (p : Str) : Except VErr Unit :=
  if p = [] then .error .invalidPath
  else if p.any isCtl then .error .invalidPath
  else if 4096 < p.length then .error .invalidPath
  else if ((splitSlash p).filter (fun s => s ≠ [])).all
      (fun s => s = ['.'] || s = dd || segValid s) then .ok ()
  else .error .invalidPath

/- ===================== path resolver ===================== -/

/-- `PathResolution` from src/path/path-resolver.ts. -/
structure PathRes where
  fullPath : Str
  parentPath : Str
  name : Str
  segments : List Str
  isRoot : Bool
deriving DecidableEq, Repr

/-- `resolvePath`: validate, then normalize and decompose. -/
def resolvePath (p : Str) : Except VErr PathRes :=
  match validatePath p with
  | .error e => .error e
  | .ok _ =>
    let f := normalizePath p
    if f = ['/'] then .ok ⟨f, ['/'], [], splitPath f, true⟩
    else .ok ⟨f, dirname f, basename f, splitPath f, false⟩

/- ===================== node model ===================== -/

/-- A tree node: `VFSFile` (byte content), `VFSDirectory` (name-keyed child
map in insertion order), `VFSSymlink` (target path string). -/
inductive VNode where
  | file (content : List Nat)
  | dir (children : List (Str × VNode))
  | symlink (target : Str)

def VNode.isDir : VNode → Bool
  | .dir _ => true
  | _ => false

def VNode.isFileN : VNode → Bool
  | .file _ => true
  | _ => false

/-- `children.get(name)` -/
def getChild (cs : List (Str × VNode)) (n : Str) : Option VNode :=
  match cs with
  | [] => none
  | (k, v) :: rest => if k = n then some v else getChild rest n

/-- `children.set(name, node)` (`addChild`): replace in place, else append. -/
def setChild (cs : List (Str × VNode)) (n : Str) (v : VNode) : List (Str × VNode) :=
  match cs with
  | [] => [(n, v)]
  | (k, w) :: rest => if k = n then (n, v) :: rest else (k, w) :: setChild rest n v

/-- `children.delete(name)` (`removeChild`). -/
def removeChild (cs : List (Str × VNode)) (n : Str) : List (Str × VNode) :=
  match cs with
  | [] => []
  | (k, w) :: rest => if k = n then rest else (k, w) :: removeChild rest n

/-- The node stored at a location (list of child names from the root). -/
def nodeAt (t : VNode) : List Str → Option VNode
  | [] => some t
  | n :: ns =>
    match t with
    | .dir cs =>
      match getChild cs n with
      | some c => nodeAt c ns
      | none => none
    | _ => none

/-- Apply `f` to the child map of the directory at a location (in-place
mutation of a directory object in the source). -/
def modifyDirAt (t : VNode) : List Str → (List (Str × VNode) → List (Str × VNode)) → VNode
  | [], f =>
    match t with
    | .dir cs => .dir (f cs)
    | _ => t
  | n :: ns, f =>
    match t with
    | .dir cs =>
      match getChild cs n with
      | some c => .dir (setChild cs n (modifyDirAt c ns f))
      | none => t
    | _ => t

/-- Replace the node at a location (in-place mutation of a file node). -/
def setNodeAt (t : VNode) : List Str → VNode → VNode
  | [], v => v
  | n :: ns, v =>
    match t with
    | .dir cs =>
      match getChild cs n with
      | some c => .dir (setChild cs n (setNodeAt c ns v))
      | none => t
    | _ => t

/-- The `VirtualFileSystem` state: root child map, `maxSymlinkDepth` option,
snapshot store (id → stored root child map), snapshot counter. -/
structure VFS where
  rootChildren : List (Str × VNode)
  maxSymlinkDepth : Nat
  snapshots : List (Str × List (Str × VNode))
  snapshotCounter : Nat

def VFS.rootNode (fs : VFS) : VNode := .dir fs.rootChildren

/-- `new VirtualFileSystem()` with default options. -/
def emptyVFS : VFS := ⟨[], 40, [], 0⟩

/- ===================== resolveNode ===================== -/

mutual

/-- `resolveNode(inputPath, followSymlinks, depth)` from src/core/vfs.ts,
returning the location of the resolved node (`none` = "not found").  `fuel`
is the extra structural argument explained in the header. -/
def resolveLocFuel (fs : VFS) (fuel : Nat) (inputPath : Str) (follow : Bool) (depth : Nat) :
    Except VErr (Option (List Str)) :=
  match fuel with
  | 0 => .error .symlinkLoop
  | fuel' + 1 =>
    if fs.maxSymlinkDepth < depth then .error .symlinkLoop
    else
      match resolvePath inputPath with
      | .error e => .error e
      | .ok r =>
        if r.isRoot then .ok (some [])
        else walkLoc fs fuel' [] follow depth r.segments []
termination_by (fuel, 0)

/-- The segment loop of `resolveNode`.  `cur` is the location of `current`,
`done` the segments before the loop index (`segments.slice(0, i)`). -/
def walkLoc (fs : VFS) (fuel : Nat) (cur : List Str) (follow : Bool) (depth : Nat)
    (rest : List Str) (done : List Str) : Except VErr (Option (List Str)) :=
  match rest with
  | [] => .ok (some cur)
  | seg :: rest' =>
    match nodeAt fs.rootNode cur with
    | some (.dir cs) =>
      match getChild cs seg with
      | none => .ok none
      | some (.symlink target) =>
        if follow ∨ rest' ≠ [] then
          let targetPath := if target.head? = some '/' then target
            else join2 (dirname ('/' :: joinSegs done)) target
          match resolveLocFuel fs fuel targetPath true (depth + 1) with
          | .error e => .error e
          | .ok none => .ok none
          | .ok (some resolved) =>
            if rest' = [] then .ok (some (if follow then resolved else cur ++ [seg]))
            else walkLoc fs fuel resolved follow depth rest' (done ++ [seg])
        else .ok (some (cur ++ [seg]))
      | some _ => walkLoc fs fuel (cur ++ [seg]) follow depth rest' (done ++ [seg])
    | _ => .ok none
termination_by (fuel, rest.length + 1)

end

/-- `resolveNode` entered at a given depth, with the fuel invariant
`fuel = maxSymlinkDepth + 2 - depth` of the header. -/
def resolveLoc (fs : VFS) (p : Str) (follow : Bool) (depth : Nat := 0) :
    Except VErr (Option (List Str)) :=
  resolveLocFuel fs (fs.maxSymlinkDepth + 2 - depth) p follow depth

/- ===================== operations ===================== -/

def nodeAtLoc (fs : VFS) (loc : List Str) : Option VNode := nodeAt fs.rootNode loc

/-- `readFile` (the raw-bytes read: no encoding argument). -/
def readFile (fs : VFS) (p : Str) : Except VErr (List Nat) :=
  match resolveLoc fs p true with
  | .error e => .error e
  | .ok none => .error .fileNotFound
  | .ok (some loc) =>
    match nodeAtLoc fs loc with
    | some (.dir _) => .error .notAFile
    | some (.file c) => .ok c
    | _ => .error .fileNotFound

/-- `getDirectory`: resolve with follow, fail with `DirectoryNotFound` /
`NotADirectory`. -/
def getDirectoryLoc (fs : VFS) (p : Str) : Except VErr (List Str) :=
  match resolveLoc fs p true with
  | .error e => .error e
  | .ok none => .error .directoryNotFound
  | .ok (some loc) =>
    match nodeAtLoc fs loc with
    | some (.dir _) => .ok loc
    | _ => .error .notADirectory

/-- Child map of the directory at a location (callers establish that the
location holds a directory). -/
def dirChildrenAt (fs : VFS) (loc : List Str) : List (Str × VNode) :=
  match nodeAtLoc fs loc with
  | some (.dir cs) => cs
  | _ => []

def setRoot (fs : VFS) (cs : List (Str × VNode)) : VFS :=
  ⟨cs, fs.maxSymlinkDepth, fs.snapshots, fs.snapshotCounter⟩

def modifyDir (fs : VFS) (loc : List Str) (f : List (Str × VNode) → List (Str × VNode)) : VFS :=
  match modifyDirAt fs.rootNode loc f with
  | .dir cs => setRoot fs cs
  | _ => fs

def setNode (fs : VFS) (loc : List Str) (v : VNode) : VFS :=
  match setNodeAt fs.rootNode loc v with
  | .dir cs => setRoot fs cs
  | _ => fs

/-- The segment loop of `createDirectory`: walk/create segment by segment.
`cur` is the location of `current`, `cp` the accumulated `currentPath`. -/
def createDirGo (fs : VFS) (recursive : Bool) :
    List Str → List Str → Str → VFS × Except VErr Unit
  | [], _, _ => (fs, .ok ())
  | seg :: rest, cur, cp =>
    let cp' := cp ++ '/' :: seg
    match getChild (dirChildrenAt fs cur) seg with
    | some (.dir _) => createDirGo fs recursive rest (cur ++ [seg]) cp'
    | some (.symlink _) =>
      match resolveLoc fs cp' true with
      | .error e => (fs, .error e)
      | .ok none => (fs, .error .notADirectory)
      | .ok (some loc) =>
        match nodeAtLoc fs loc with
        | some (.dir _) => createDirGo fs recursive rest loc cp'
        | _ => (fs, .error .notADirectory)
    | some (.file _) => (fs, .error .notADirectory)
    | none =>
      if ¬recursive ∧ rest ≠ [] then (fs, .error .directoryNotFound)
      else
        let fs' := modifyDir fs cur (fun cs => setChild cs seg (.dir []))
        createDirGo fs' recursive rest (cur ++ [seg]) cp'

/-- `createDirectory(dirPath, recursive)`. -/
def createDirectory (fs : VFS) (p : Str) (recursive : Bool := false) : VFS × Except VErr Unit :=
  match resolvePath p with
  | .error e => (fs, .error e)
  | .ok r =>
    if r.fullPath = ['/'] then (fs, .ok ())
    else createDirGo fs recursive r.segments [] []

/-- `writeFileInternal(filePath, content)`. -/
def writeFileInternal (fs : VFS) (p : Str) (content : List Nat) : VFS × Except VErr Unit :=
  match resolvePath p with
  | .error e => (fs, .error e)
  | .ok r =>
    match createDirectory fs r.parentPath true with
    | (fs1, .error e) => (fs1, .error e)
    | (fs1, .ok _) =>
      match getDirectoryLoc fs1 r.parentPath with
      | .error e => (fs1, .error e)
      | .ok parentLoc =>
        match getChild (dirChildrenAt fs1 parentLoc) r.name with
        | some (.dir _) => (fs1, .error .notAFile)
        | some (.file _) =>
          (modifyDir fs1 parentLoc (fun cs => setChild cs r.name (.file content)), .ok ())
        | some (.symlink _) =>
          match resolveLoc fs1 p true with
          | .error e => (fs1, .error e)
          | .ok (some loc) =>
            match nodeAtLoc fs1 loc with
            | some (.file _) => (setNode fs1 loc (.file content), .ok ())
            | _ => (modifyDir fs1 parentLoc (fun cs => setChild cs r.name (.file content)), .ok ())
          | .ok none =>
            (modifyDir fs1 parentLoc (fun cs => setChild cs r.name (.file content)), .ok ())
        | none =>
          (modifyDir fs1 parentLoc (fun cs => setChild cs r.name (.file content)), .ok ())

/-- `writeFile` without options (content already bytes). -/
def writeFile (fs : VFS) (p : Str) (content : List Nat) : VFS × Except VErr Unit :=
  writeFileInternal fs p content

/-- `appendFile`. -/
def appendFile (fs : VFS) (p : Str) (content : List Nat) : VFS × Except VErr Unit :=
  match resolveLoc fs p true with
  | .error e => (fs, .error e)
  | .ok none => writeFile fs p content
  | .ok (some loc) =>
    match nodeAtLoc fs loc with
    | some (.file old) => (setNode fs loc (.file (old ++ content)), .ok ())
    | _ => (fs, .error .notAFile)

/-- `deleteFile` (`getDirectoryOrNull` failure becomes `FileNotFound`). -/
def deleteFile (fs : VFS) (p : Str) : VFS × Except VErr Unit :=
  match resolvePath p with
  | .error e => (fs, .error e)
  | .ok r =>
    match getDirectoryLoc fs r.parentPath with
    | .error _ => (fs, .error .fileNotFound)
    | .ok parentLoc =>
      match getChild (dirChildrenAt fs parentLoc) r.name with
      | none => (fs, .error .fileNotFound)
      | some (.dir _) => (fs, .error .notAFile)
      | some _ => (modifyDir fs parentLoc (fun cs => removeChild cs r.name), .ok ())

/-- `deleteDirectory(dirPath, recursive)`. -/
def deleteDirectory (fs : VFS) (p : Str) (recursive : Bool := false) : VFS × Except VErr Unit :=
  match resolvePath p with
  | .error e => (fs, .error e)
  | .ok r =>
    if r.isRoot then
      if ¬recursive then (fs, .error .directoryNotEmpty)
      else (setRoot fs [], .ok ())
    else
      match getDirectoryLoc fs r.parentPath with
      | .error e => (fs, .error e)
      | .ok parentLoc =>
        match getChild (dirChildrenAt fs parentLoc) r.name with
        | none => (fs, .error .directoryNotFound)
        | some (.file _) => (fs, .error .notADirectory)
        | some (.symlink _) => (fs, .error .notADirectory)
        | some (.dir cs) =>
          if ¬recursive ∧ cs.isEmpty = false then (fs, .error .directoryNotEmpty)
          else (modifyDir fs parentLoc (fun cs' => removeChild cs' r.name), .ok ())

/-- `exists(targetPath)`: resolve without following the final symlink; every
thrown error is caught and becomes `false`. -/
def existsPath (fs : VFS) (p : Str) : Bool :=
  match resolveLoc fs p false with
  | .ok (some _) => true
  | _ => false

/-- `copyFile`: read then write. -/
def copyFile (fs : VFS) (src dst : Str) : VFS × Except VErr Unit :=
  match readFile fs src with
  | .error e => (fs, .error e)
  | .ok content => writeFile fs dst content

/-- `moveFile`: copy then delete. -/
def moveFile (fs : VFS) (src dst : Str) : VFS × Except VErr Unit :=
  match copyFile fs src dst with
  | (fs1, .error e) => (fs1, .error e)
  | (fs1, .ok _) => deleteFile fs1 src

/-- `writeFile` with `options.tempSuffix` (atomic mode): write the temp file,
then `moveFile` it onto the final path. -/
def writeFileAtomic (fs : VFS) (p : Str) (content : List Nat) (tempSuffix : Str) :
    VFS × Except VErr Unit :=
  let tempPath := p ++ tempSuffix
  match writeFileInternal fs tempPath content with
  | (fs1, .error e) => (fs1, .error e)
  | (fs1, .ok _) => moveFile fs1 tempPath p

/-- `createSymlink(target, linkPath)`. -/
def createSymlink (fs : VFS) (target linkPath : Str) : VFS × Except VErr Unit :=
  match resolvePath linkPath with
  | .error e => (fs, .error e)
  | .ok r =>
    match createDirectory fs r.parentPath true with
    | (fs1, .error e) => (fs1, .error e)
    | (fs1, .ok _) =>
      match getDirectoryLoc fs1 r.parentPath with
      | .error e => (fs1, .error e)
      | .ok parentLoc =>
        match getChild (dirChildrenAt fs1 parentLoc) r.name with
        | some _ => (fs1, .error .fileAlreadyExists)
        | none =>
          (modifyDir fs1 parentLoc (fun cs => setChild cs r.name (.symlink target)), .ok ())

/- ===================== snapshots ===================== -/

def assocGet {α : Type} (m : List (Str × α)) (k : Str) : Option α :=
  match m with
  | [] => none
  | (k2, v) :: rest => if k2 = k then some v else assocGet rest k

def assocSet {α : Type} (m : List (Str × α)) (k : Str) (v : α) : List (Str × α) :=
  match m with
  | [] => [(k, v)]
  | (k2, w) :: rest => if k2 = k then (k, v) :: rest else (k2, w) :: assocSet rest k v

/-- `createSnapshot`: deep-clone the live root (clones are independent
values here) and store it under a fresh id.  The aggregate counters of
`SnapshotInfo` are metadata and are not modelled. -/
def createSnapshot (fs : VFS) : VFS × Str :=
  let id := str "snapshot-" ++ str (Nat.repr (fs.snapshotCounter + 1))
  (⟨fs.rootChildren, fs.maxSymlinkDepth, assocSet fs.snapshots id fs.rootChildren,
    fs.snapshotCounter + 1⟩, id)

/-- `restoreSnapshot`: clear the root children, then `addChild` each entry of
a clone of the stored tree in order. -/
def restoreSnapshot (fs : VFS) (id : Str) : VFS × Except VErr Unit :=
  match assocGet fs.snapshots id with
  | none => (fs, .error .snapshotNotFound)
  | some stored =>
    (setRoot fs (stored.foldl (fun acc e => setChild acc e.1 e.2) []), .ok ())

/- ===================== diff ===================== -/

inductive DiffType where
  | added
  | modified
  | deleted
deriving DecidableEq, Repr

/-- `FileDiff` restricted to type, path and contents (the `stats` fields are
timestamp metadata, not modelled). -/
structure FileDiff where
  type : DiffType
  path : Str
  oldContent : Option (List Nat)
  newContent : Option (List Nat)
deriving DecidableEq, Repr

/-- The deletion pass of `computeDiff`: a `Deleted` record for each `from`
child that is a file and is absent from `to`; nothing for directories. -/
def diffDeleted (toCs : List (Str × VNode)) (fromCs : List (Str × VNode)) (basePath : Str) :
    List FileDiff :=
  match fromCs with
  | [] => []
  | (name, fromNode) :: rest =>
    (match getChild toCs name, fromNode with
     | none, .file c =>
       [⟨.deleted, (if basePath = [] then '/' :: name else basePath ++ '/' :: name), some c, none⟩]
     | _, _ => []) ++ diffDeleted toCs rest basePath

mutual

/-- The `toChildren` pass of `computeDiff`: `Added`/`Modified` records and
recursion into every directory present in `to`. -/
def diffTo (fromM : List (Str × VNode)) (toCs : List (Str × VNode)) (basePath : Str) :
    List FileDiff :=
  match toCs with
  | [] => []
  | (name, toNode) :: rest =>
    let path := if basePath = [] then '/' :: name else basePath ++ '/' :: name
    let here : List FileDiff :=
      match getChild fromM name, toNode with
      | none, .file c => [⟨.added, path, none, some c⟩]
      | some (.file oc), .file nc =>
        if oc ≠ nc then [⟨.modified, path, some oc, some nc⟩] else []
      | _, _ => []
    let sub : List FileDiff :=
      match toNode with
      | .dir cs =>
        diffChildren
          (match getChild fromM name with
           | some (.dir fcs) => some fcs
           | _ => none) cs path
      | _ => []
    here ++ sub ++ diffTo fromM rest basePath

/-- `computeDiff(from, to, basePath, diffs)`: records appended by the `to`
pass, then by the deletion pass. -/
def diffChildren (fromCs : Option (List (Str × VNode))) (toCs : List (Str × VNode))
    (basePath : Str) : List FileDiff :=
  diffTo (match fromCs with | some cs => cs | none => []) toCs basePath ++
  diffDeleted toCs (match fromCs with | some cs => cs | none => []) basePath

end

/-- `diff(fromId?, toId?)`: `from` defaults to an empty tree, `to` to the
live tree; unknown ids raise. -/
def diffOp (fs : VFS) (fromId toId : Option Str) : Except VErr (List FileDiff) :=
  match fromId with
  | some f =>
    match assocGet fs.snapshots f with
    | none => .error .snapshotNotFound
    | some fromRoot =>
      match toId with
      | some t =>
        match assocGet fs.snapshots t with
        | none => .error .snapshotNotFound
        | some toRoot => .ok (diffChildren (some fromRoot) toRoot [])
      | none => .ok (diffChildren (some fromRoot) fs.rootChildren [])
  | none =>
    match toId with
    | some t =>
      match assocGet fs.snapshots t with
      | none => .error .snapshotNotFound
      | some toRoot => .ok (diffChildren (some []) toRoot [])
    | none => .ok (diffChildren (some []) fs.rootChildren [])

/- ===================== glob ===================== -/

/-- Tokens of the regex produced by `patternToRegex`: literal characters,
`[^/]*` (from `*`), `[^/]` (from `?`), `.*` (from `**` — and from a literal
`<<<GLOBSTAR>>>` in the pattern, which the final placeholder substitution
also turns into `.*`). -/
inductive GTok where
  | lit (c : Char)
  | star
  | qmark
  | globstar
deriving DecidableEq, Repr

/-- `patternToRegex` as a tokenizer: `**` before `*` (the source substitutes
`**` by the placeholder first), metacharacter escapes make every other
character a literal. -/
def gtokenize : Str → List GTok
  | [] => []
  | '*' :: '*' :: rest => .globstar :: gtokenize rest
  | '*' :: rest => .star :: gtokenize rest
  | '?' :: rest => .qmark :: gtokenize rest
  | '<' :: '<' :: '<' :: 'G' :: 'L' :: 'O' :: 'B' :: 'S' :: 'T' :: 'A' :: 'R' :: '>' :: '>' :: '>' :: rest =>
    .globstar :: gtokenize rest
  | c :: rest => .lit c :: gtokenize rest

/-- `regex.test(s)` for the anchored compiled pattern. -/
def gmatch (ts : List GTok) (s : Str) : Bool :=
  match ts, s with
  | [], [] => true
  | [], _ :: _ => false
  | .lit c :: ts', d :: ds => c = d && gmatch ts' ds
  | .lit _ :: _, [] => false
  | .qmark :: ts', d :: ds => d ≠ '/' && gmatch ts' ds
  | .qmark :: _, [] => false
  | .star :: ts', s =>
    gmatch ts' s ||
      (match s with
       | d :: ds => d ≠ '/' && gmatch (.star :: ts') ds
       | [] => false)
  | .globstar :: ts', s =>
    gmatch ts' s ||
      (match s with
       | _ :: ds => gmatch (.globstar :: ts') ds
       | [] => false)
termination_by (s.length, ts.length)

/-- `GlobOptions` (a `cwd` of `none` models an absent option; the source maps
an absent or empty `cwd` to `'/'`). -/
structure GlobOpts where
  cwd : Option Str := none
  maxDepth : Option Nat := none
  onlyFiles : Bool := false
  onlyDirectories : Bool := false
  followSymlinks : Bool := true
  dot : Bool := false
  absolute : Bool := true
  ignore : List Str := []

/-- `matchesIgnore(path, ignorePatterns)`. -/
def matchesIgnore (p : Str) (ignorePatterns : List Str) : Bool :=
  ignorePatterns.any (fun pat => gmatch (gtokenize pat) p || gmatch (gtokenize pat) (basename p))

/-- `depth > maxDepth` where `maxDepth` may be `Infinity` (`none`). -/
def depthExceeded (depth : Nat) (maxDepth : Option Nat) : Bool :=
  match maxDepth with
  | none => false
  | some m => m < depth

/-- Lexicographic order on strings (JavaScript's default array sort). -/
def strLe (a b : Str) : Bool :=
  match a, b with
  | [], _ => true
  | _ :: _, [] => false
  | c :: cs, d :: ds => if c = d then strLe cs ds else c < d

def insertSorted (x : Str) (l : List Str) : List Str :=
  match l with
  | [] => [x]
  | y :: ys => if strLe x y then x :: y :: ys else y :: insertSorted x ys

/-- `results.sort()`. -/
def sortStrs (l : List Str) : List Str :=
  match l with
  | [] => []
  | x :: xs => insertSorted x (sortStrs xs)

mutual

/-- `traverse(dir, currentPath, depth)` of `glob`.  The source recursion is
unbounded (a followed symlink cycle overflows the JS stack); `fuel`
decreases once per directory level, and the fuel-out branch throws, so any
sufficiently large fuel computes the source's value on terminating inputs.
The claims below quantify over `fuel`. -/
def globTraverse (fs : VFS) (toks : List GTok) (o : GlobOpts) (cwd : Str) (fuel : Nat)
    (cs : List (Str × VNode)) (currentPath : Str) (depth : Nat) : Except VErr (List Str) :=
  match fuel with
  | 0 => .error .symlinkLoop
  | fuel' + 1 =>
    if depthExceeded depth o.maxDepth then .ok []
    else globKids fs toks o cwd fuel' cs currentPath depth
termination_by (fuel, 0)

/-- The `for (const node of dir.getChildren())` body of `traverse`:
`relativePath = nodePath.slice(cwd.length + 1) || node.name`, dotfile and
ignore filters, symlink substitution, pattern test, recursion. -/
def globKids (fs : VFS) (toks : List GTok) (o : GlobOpts) (cwd : Str) (fuel : Nat)
    (cs : List (Str × VNode)) (currentPath : Str) (depth : Nat) : Except VErr (List Str) :=
  match cs with
  | [] => .ok []
  | (name, node) :: rest =>
    let nodePath := if currentPath = ['/'] then '/' :: name else currentPath ++ '/' :: name
    let relativePath :=
      let r := nodePath.drop (cwd.length + 1)
      if r = [] then name else r
    if o.dot = false ∧ name.head? = some '.' then globKids fs toks o cwd fuel rest currentPath depth
    else if matchesIgnore nodePath o.ignore then globKids fs toks o cwd fuel rest currentPath depth
    else
      let effRes : Except VErr (Option VNode) :=
        match node with
        | .symlink _ =>
          if o.followSymlinks then
            match resolveLoc fs nodePath true with
            | .error e => .error e
            | .ok none => .ok none
            | .ok (some loc) => .ok (nodeAtLoc fs loc)
          else .ok (some node)
        | _ => .ok (some node)
      match effRes with
      | .error e => .error e
      | .ok none => globKids fs toks o cwd fuel rest currentPath depth
      | .ok (some effectiveNode) =>
        let here : List Str :=
          if gmatch toks relativePath then
            if (!o.onlyFiles && !o.onlyDirectories)
                || (o.onlyFiles && effectiveNode.isFileN)
                || (o.onlyDirectories && effectiveNode.isDir) then
              [if o.absolute then nodePath else relativePath]
            else []
          else []
        match effectiveNode with
        | .dir cs' =>
          match globTraverse fs toks o cwd fuel cs' nodePath (depth + 1) with
          | .error e => .error e
          | .ok sub =>
            match globKids fs toks o cwd fuel rest currentPath depth with
            | .error e => .error e
            | .ok tail => .ok (here ++ sub ++ tail)
        | _ =>
          match globKids fs toks o cwd fuel rest currentPath depth with
          | .error e => .error e
          | .ok tail => .ok (here ++ tail)
termination_by (fuel, cs.length + 1)

end

/-- `glob(pattern, options)`: compile the pattern, resolve `cwd`
(`getDirectoryOrNull` failures give an empty result), traverse, sort. -/
def glob (fs : VFS) (pattern : Str) (o : GlobOpts) (fuel : Nat) : Except VErr (List Str) :=
  let cwd := match o.cwd with
    | none => ['/']
    | some c => normalizePath c
  let toks := gtokenize pattern
  match resolveLoc fs cwd true with
  | .error _ => .ok (sortStrs [])
  | .ok none => .ok (sortStrs [])
  | .ok (some loc) =>
    match nodeAtLoc fs loc with
    | some (.dir cs) =>
      match globTraverse fs toks o cwd fuel cs cwd 0 with
      | .error e => .error e
      | .ok results => .ok (sortStrs results)
    | _ => .ok (sortStrs [])

/- ===================== mutation sequences (for the snapshot claim) ===================== -/

/-- The public tree-mutating operations (plus `restoreSnapshot`), as a
syntax of operations that can be applied in sequence. -/
inductive MOp where
  | write (p : Str) (c : List Nat)
  | writeAtomic (p : Str) (c : List Nat) (tempSuffix : Str)
  | append (p : Str) (c : List Nat)
  | deleteF (p : Str)
  | mkdir (p : Str) (recursive : Bool)
  | rmdir (p : Str) (recursive : Bool)
  | mklink (target p : Str)
  | move (src dst : Str)
  | copy (src dst : Str)
  | restore (id : Str)

def applyOp (fs : VFS) : MOp → VFS
  | .write p c => (writeFile fs p c).1
  | .writeAtomic p c suf => (writeFileAtomic fs p c suf).1
  | .append p c => (appendFile fs p c).1
  | .deleteF p => (deleteFile fs p).1
  | .mkdir p r => (createDirectory fs p r).1
  | .rmdir p r => (deleteDirectory fs p r).1
  | .mklink t p => (createSymlink fs t p).1
  | .move a b => (moveFile fs a b).1
  | .copy a b => (copyFile fs a b).1
  | .restore id => (restoreSnapshot fs id).1

def applyOps (fs : VFS) : List MOp → VFS
  | [] => fs
  | op :: rest => applyOps (applyOp fs op) rest

/- ===================== spec-side and support definitions ===================== -/

/-- A plain path segment: nonempty, not `.` or `..`, no separator and no
backslash.  These are exactly the segments `normalizePath` can emit. -/
def goodSeg (s : Str) : Prop :=
  s ≠ [] ∧ s ≠ ['.'] ∧ s ≠ dd ∧ '/' ∉ s ∧ '\\' ∉ s

instance (s : Str) : Decidable (goodSeg s) := by
  unfold goodSeg; infer_instance

/-- The absolute path `/s1/.../sk` spelled from its segments. -/
def renderAbs (segs : List Str) : Str := '/' :: joinSegs segs

/-- A walk through plain directories only (no symlink on the way): the child
map reached by following existing directory children. -/
def plainDirWalk (cs : List (Str × VNode)) : List Str → Option (List (Str × VNode))
  | [] => some cs
  | q :: rest =>
    match getChild cs q with
    | some (.dir cs') => plainDirWalk cs' rest
    | _ => none

/-- The first symlink substitution the segment loop of `resolveNode`
(`walkLoc`) performs with following enabled: walking `rest` from the node
at `cur` through existing plain directories, the target path computed for
the first symlink child encountered — an absolute target taken as is, a
relative one joined onto `dirname('/' + done.join('/'))` exactly as in
`walkLoc` (`done` tracks the consumed segments); `none` when the walk
ends, dead-ends or fails before any symlink.  With `follow = true` the
substitution fires for a symlink in any position, so this is the path of
the recursive `resolveNode` call whose failure `walkLoc` propagates. -/
def firstLinkTarget (fs : VFS) : List Str → List Str → List Str → Option Str
  | _, [], _ => none
  | cur, seg :: rest2, done =>
    match nodeAt fs.rootNode cur with
    | some (.dir cs) =>
      match getChild cs seg with
      | some (.symlink target) =>
        some (if target.head? = some '/' then target
          else join2 (dirname ('/' :: joinSegs done)) target)
      | some _ => firstLinkTarget fs (cur ++ [seg]) rest2 (done ++ [seg])
      | none => none
    | _ => none

/-- Modelled from the spec: the path of a node relative to `cwd` is "the full
path with the `cwd` prefix and its trailing separator removed" (§4.3 / C8).
For `cwd = '/'` the prefix and the separator are the same single character. -/
def relPathSpec (cwd nodePath : Str) : Str :=
  if cwd = ['/'] then nodePath.drop 1 else nodePath.drop (cwd.length + 1)

mutual

/-- Modelled from the spec: `glob`'s traversal with the relative path
computed by `relPathSpec`; every other step follows the source. -/
def globTraverseSpec (fs : VFS) (toks : List GTok) (o : GlobOpts) (cwd : Str) (fuel : Nat)
    (cs : List (Str × VNode)) (currentPath : Str) (depth : Nat) : Except VErr (List Str) :=
  match fuel with
  | 0 => .error .symlinkLoop
  | fuel' + 1 =>
    if depthExceeded depth o.maxDepth then .ok []
    else globKidsSpec fs toks o cwd fuel' cs currentPath depth
termination_by (fuel, 0)

/-- Modelled from the spec: the per-child body with `relPathSpec`. -/
def globKidsSpec (fs : VFS) (toks : List GTok) (o : GlobOpts) (cwd : Str) (fuel : Nat)
    (cs : List (Str × VNode)) (currentPath : Str) (depth : Nat) : Except VErr (List Str) :=
  match cs with
  | [] => .ok []
  | (name, node) :: rest =>
    let nodePath := if currentPath = ['/'] then '/' :: name else currentPath ++ '/' :: name
    let relativePath := relPathSpec cwd nodePath
    if o.dot = false ∧ name.head? = some '.' then
      globKidsSpec fs toks o cwd fuel rest currentPath depth
    else if matchesIgnore nodePath o.ignore then globKidsSpec fs toks o cwd fuel rest currentPath depth
    else
      let effRes : Except VErr (Option VNode) :=
        match node with
        | .symlink _ =>
          if o.followSymlinks then
            match resolveLoc fs nodePath true with
            | .error e => .error e
            | .ok none => .ok none
            | .ok (some loc) => .ok (nodeAtLoc fs loc)
          else .ok (some node)
        | _ => .ok (some node)
      match effRes with
      | .error e => .error e
      | .ok none => globKidsSpec fs toks o cwd fuel rest currentPath depth
      | .ok (some effectiveNode) =>
        let here : List Str :=
          if gmatch toks relativePath then
            if (!o.onlyFiles && !o.onlyDirectories)
                || (o.onlyFiles && effectiveNode.isFileN)
                || (o.onlyDirectories && effectiveNode.isDir) then
              [if o.absolute then nodePath else relativePath]
            else []
          else []
        match effectiveNode with
        | .dir cs' =>
          match globTraverseSpec fs toks o cwd fuel cs' nodePath (depth + 1) with
          | .error e => .error e
          | .ok sub =>
            match globKidsSpec fs toks o cwd fuel rest currentPath depth with
            | .error e => .error e
            | .ok tail => .ok (here ++ sub ++ tail)
        | _ =>
          match globKidsSpec fs toks o cwd fuel rest currentPath depth with
          | .error e => .error e
          | .ok tail => .ok (here ++ tail)
termination_by (fuel, cs.length + 1)

end

/-- Modelled from the spec: `glob` with the spec's relative-path rule
(`globTraverseSpec`); everything else follows the source wrapper. -/
def globSpec (fs : VFS) (pattern : Str) (o : GlobOpts) (fuel : Nat) : Except VErr (List Str) :=
  let cwd := match o.cwd with
    | none => ['/']
    | some c => normalizePath c
  let toks := gtokenize pattern
  match resolveLoc fs cwd true with
  | .error _ => .ok (sortStrs [])
  | .ok none => .ok (sortStrs [])
  | .ok (some loc) =>
    match nodeAtLoc fs loc with
    | some (.dir cs) =>
      match globTraverseSpec fs toks o cwd fuel cs cwd 0 with
      | .error e => .error e
      | .ok results => .ok (sortStrs results)
    | _ => .ok (sortStrs [])

/-- Auxiliary predicate for the proofs: the string contains two adjacent
separators (so `collapse` would change it). -/
def hasDS : Str → Bool
  | [] => false
  | [_] => false
  | c1 :: c2 :: rest => (c1 = '/' && c2 = '/') || hasDS (c2 :: rest)

/- ===================== lemmas: path normalizer ===================== -/

theorem splitSlash_ne_nil (l : Str) : splitSlash l ≠ [] := by
  cases l with
  | nil => simp [splitSlash]
  | cons c rest =>
    simp only [splitSlash]
    split
    · simp
    · split <;> simp

theorem mem_splitSlash_no_slash (l : Str) : ∀ s ∈ splitSlash l, '/' ∉ s := by
  induction l with
  | nil => simp [splitSlash]
  | cons c rest ih =>
    simp only [splitSlash]
    by_cases hc : c = '/'
    · simp only [hc, if_pos rfl]
      intro s hs
      rcases List.mem_cons.mp hs with h | h
      · simp [h]
      · exact ih s h
    · simp only [if_neg hc]
      rcases hsplit : splitSlash rest with _ | ⟨p, ps⟩
      · exact absurd hsplit (splitSlash_ne_nil rest)
      · intro s hs
        rcases List.mem_cons.mp hs with h | h
        · subst h
          intro hmem
          rcases List.mem_cons.mp hmem with h | h
          · exact hc h.symm
          · exact ih p (hsplit ▸ List.mem_cons_self p ps) h
        · exact ih s (hsplit ▸ List.mem_cons_of_mem p h)

theorem mem_splitSlash_subset (l : Str) : ∀ s ∈ splitSlash l, ∀ c ∈ s, c ∈ l := by
  induction l with
  | nil => simp [splitSlash]
  | cons a rest ih =>
    simp only [splitSlash]
    by_cases hc : a = '/'
    · simp only [hc, if_pos rfl]
      intro s hs c hc2
      rcases List.mem_cons.mp hs with h | h
      · simp [h] at hc2
      · exact List.mem_cons_of_mem _ (ih s h c hc2)
    · simp only [if_neg hc]
      rcases hsplit : splitSlash rest with _ | ⟨p, ps⟩
      · exact absurd hsplit (splitSlash_ne_nil rest)
      · intro s hs c hc2
        rcases List.mem_cons.mp hs with h | h
        · subst h
          rcases List.mem_cons.mp hc2 with h | h
          · exact h ▸ List.mem_cons_self a rest
          · exact List.mem_cons_of_mem _ (ih p (hsplit ▸ List.mem_cons_self p ps) c h)
        · exact List.mem_cons_of_mem _ (ih s (hsplit ▸ List.mem_cons_of_mem p h) c hc2)

theorem splitSlash_slash_cons (l : Str) : splitSlash ('/' :: l) = [] :: splitSlash l := by
  simp [splitSlash]

theorem splitSlash_noSlash (s : Str) (h : '/' ∉ s) : splitSlash s = [s] := by
  induction s with
  | nil => simp [splitSlash]
  | cons c rest ih =>
    have hc : c ≠ '/' := fun hh => h (hh ▸ List.mem_cons_self c rest)
    have hrest : '/' ∉ rest := fun hh => h (List.mem_cons_of_mem c hh)
    simp [splitSlash, hc, ih hrest]

theorem splitSlash_append_noSlash (s l : Str) (h : '/' ∉ s) :
    splitSlash (s ++ '/' :: l) = s :: splitSlash l := by
  induction s with
  | nil => simp [splitSlash]
  | cons c rest ih =>
    have hc : c ≠ '/' := fun hh => h (hh ▸ List.mem_cons_self c rest)
    have hrest : '/' ∉ rest := fun hh => h (List.mem_cons_of_mem c hh)
    simp [splitSlash, hc, ih hrest]

theorem splitSlash_joinSegs (segs : List Str) (hne : segs ≠ [])
    (h : ∀ s ∈ segs, '/' ∉ s) : splitSlash (joinSegs segs) = segs := by
  induction segs with
  | nil => exact absurd rfl hne
  | cons s rest ih =>
    cases rest with
    | nil => exact splitSlash_noSlash s (h s (List.mem_cons_self s []))
    | cons t ts =>
      have hs : '/' ∉ s := h s (List.mem_cons_self s _)
      have hrest : ∀ x ∈ t :: ts, '/' ∉ x := fun x hx => h x (List.mem_cons_of_mem s hx)
      rw [show joinSegs (s :: t :: ts) = s ++ '/' :: joinSegs (t :: ts) from rfl,
        splitSlash_append_noSlash s _ hs, ih (by simp) hrest]

theorem replBS_eq_self (l : Str) (h : '\\' ∉ l) : replBS l = l := by
  induction l with
  | nil => rfl
  | cons c rest ih =>
    have hc : c ≠ '\\' := fun hh => h (hh ▸ List.mem_cons_self c rest)
    have hrest : '\\' ∉ rest := fun hh => h (List.mem_cons_of_mem c hh)
    simp [replBS, hc, ih hrest]
    simpa [replBS] using ih hrest

theorem hasDS_tail (c : Char) (l : Str) (h : hasDS (c :: l) = false) : hasDS l = false := by
  cases l with
  | nil => rfl
  | cons d ds =>
    rw [show hasDS (c :: d :: ds) = ((c = '/' && d = '/') || hasDS (d :: ds)) from rfl] at h
    simp only [Bool.or_eq_false_iff] at h
    exact h.2

theorem collapse_eq_self (l : Str) (h : hasDS l = false) : collapse l = l := by
  induction l with
  | nil => rfl
  | cons c rest ih =>
    rw [collapse]
    rw [if_neg ?_]
    · rw [ih (hasDS_tail c rest h)]
    · intro ⟨hc, hh⟩
      cases rest with
      | nil => simp at hh
      | cons d ds =>
        have hd : d = '/' := by
          simp only [List.head?] at hh
          injection hh
        rw [show hasDS (c :: d :: ds) = ((c = '/' && d = '/') || hasDS (d :: ds)) from rfl] at h
        simp [hc, hd] at h

theorem joinSegs_ne_nil (segs : List Str) (hne : segs ≠ []) (h : ∀ s ∈ segs, s ≠ []) :
    joinSegs segs ≠ [] := by
  cases segs with
  | nil => exact absurd rfl hne
  | cons s rest =>
    cases rest with
    | nil => exact h s (List.mem_cons_self s [])
    | cons t ts =>
      rw [show joinSegs (s :: t :: ts) = s ++ '/' :: joinSegs (t :: ts) from rfl]
      simp

theorem joinSegs_chars (segs : List Str) :
    ∀ c ∈ joinSegs segs, c = '/' ∨ ∃ s ∈ segs, c ∈ s := by
  induction segs with
  | nil => simp [joinSegs]
  | cons s rest ih =>
    cases rest with
    | nil =>
      intro c hc
      exact Or.inr ⟨s, List.mem_cons_self s [], hc⟩
    | cons t ts =>
      rw [show joinSegs (s :: t :: ts) = s ++ '/' :: joinSegs (t :: ts) from rfl]
      intro c hc
      rcases List.mem_append.mp hc with h | h
      · exact Or.inr ⟨s, List.mem_cons_self s _, h⟩
      · rcases List.mem_cons.mp h with h | h
        · exact Or.inl h
        · rcases ih c h with h | ⟨x, hx, hcx⟩
          · exact Or.inl h
          · exact Or.inr ⟨x, List.mem_cons_of_mem s hx, hcx⟩

theorem hasDS_cons2 (c1 c2 : Char) (rest : Str) :
    hasDS (c1 :: c2 :: rest) = ((c1 = '/' && c2 = '/') || hasDS (c2 :: rest)) := rfl

theorem hasDS_append_cons (a : Str) (c : Char) (b : Str) (ha : hasDS (a ++ [c]) = false)
    (hb : hasDS (c :: b) = false) : hasDS (a ++ c :: b) = false := by
  induction a with
  | nil => exact hb
  | cons x rest ih =>
    cases rest with
    | nil =>
      rw [List.cons_append, List.nil_append, hasDS_cons2]
      rw [show ([x] ++ [c] : Str) = x :: c :: [] from rfl, hasDS_cons2] at ha
      simp only [Bool.or_eq_false_iff] at ha ⊢
      refine ⟨ha.1, hb⟩
    | cons y ys =>
      show hasDS (x :: y :: (ys ++ c :: b)) = false
      have ha' : hasDS (x :: y :: (ys ++ [c])) = false := ha
      rw [hasDS_cons2] at ha' ⊢
      simp only [Bool.or_eq_false_iff] at ha' ⊢
      refine ⟨ha'.1, ?_⟩
      have goal2 := ih (by simpa using ha'.2)
      simpa using goal2

theorem hasDS_of_noSlash (s : Str) (h : '/' ∉ s) : hasDS s = false := by
  match s with
  | [] => rfl
  | [c] => rfl
  | c1 :: c2 :: rest =>
    have h1 : c1 ≠ '/' := fun hh => h (hh ▸ List.mem_cons_self c1 _)
    have h2 : '/' ∉ c2 :: rest := fun hh => h (List.mem_cons_of_mem c1 hh)
    rw [hasDS_cons2]
    simp [h1, hasDS_of_noSlash (c2 :: rest) h2]
termination_by s.length

theorem hasDS_single_append (s : Str) (h : '/' ∉ s) : hasDS (s ++ ['/']) = false := by
  match s with
  | [] => rfl
  | [c] =>
    have h1 : c ≠ '/' := by
      simp at h
      exact Ne.symm h
    show hasDS (c :: '/' :: []) = false
    rw [hasDS_cons2]
    simp [h1, show hasDS ['/'] = false from rfl]
  | c1 :: c2 :: rest =>
    have h1 : c1 ≠ '/' := fun hh => h (hh ▸ List.mem_cons_self c1 _)
    have h2 : '/' ∉ c2 :: rest := fun hh => h (List.mem_cons_of_mem c1 hh)
    show hasDS (c1 :: c2 :: (rest ++ ['/'])) = false
    rw [hasDS_cons2]
    simp only [Bool.or_eq_false_iff]
    refine ⟨by simp [h1], ?_⟩
    have hrec := hasDS_single_append (c2 :: rest) h2
    simpa using hrec
termination_by s.length

theorem hasDS_cons_of (c : Char) (l : Str) (h1 : ¬(c = '/' ∧ l.head? = some '/'))
    (h2 : hasDS l = false) : hasDS (c :: l) = false := by
  cases l with
  | nil => rfl
  | cons d ds =>
    rw [hasDS_cons2]
    simp only [Bool.or_eq_false_iff]
    refine ⟨?_, h2⟩
    simp only [List.head?] at h1
    by_cases hc : c = '/'
    · have hd : d ≠ '/' := fun hh => h1 ⟨hc, by simp [hh]⟩
      simp [hd]
    · simp [hc]

theorem joinSegs_head (segs : List Str) (h : ∀ s ∈ segs, s ≠ [] ∧ '/' ∉ s) :
    ¬(joinSegs segs).head? = some '/' := by
  cases segs with
  | nil => simp [joinSegs]
  | cons s rest =>
    have hs := h s (List.mem_cons_self s _)
    obtain ⟨a, as, hfst⟩ : ∃ a as, s = a :: as := by
      cases s with
      | nil => exact absurd rfl hs.1
      | cons a as => exact ⟨a, as, rfl⟩
    have ha : a ≠ '/' := fun hh => hs.2 (hfst ▸ (hh ▸ List.mem_cons_self a as))
    cases rest with
    | nil =>
      subst hfst
      simp only [joinSegs, List.head?]
      intro hcon
      exact ha (by injection hcon)
    | cons t ts =>
      rw [show joinSegs (s :: t :: ts) = s ++ '/' :: joinSegs (t :: ts) from rfl, hfst]
      simp only [List.cons_append, List.head?]
      intro hcon
      exact ha (by injection hcon)

theorem hasDS_joinSegs (segs : List Str) (h : ∀ s ∈ segs, s ≠ [] ∧ '/' ∉ s) :
    hasDS (joinSegs segs) = false := by
  induction segs with
  | nil => rfl
  | cons s rest ih =>
    cases rest with
    | nil => exact hasDS_of_noSlash s (h s (List.mem_cons_self s [])).2
    | cons t ts =>
      rw [show joinSegs (s :: t :: ts) = s ++ '/' :: joinSegs (t :: ts) from rfl]
      have hs := h s (List.mem_cons_self s _)
      have hrest : ∀ x ∈ t :: ts, x ≠ [] ∧ '/' ∉ x := fun x hx => h x (List.mem_cons_of_mem s hx)
      refine hasDS_append_cons s '/' (joinSegs (t :: ts)) (hasDS_single_append s hs.2) ?_
      refine hasDS_cons_of '/' (joinSegs (t :: ts)) ?_ (ih hrest)
      intro hcon
      exact joinSegs_head (t :: ts) hrest hcon.2



theorem procParts_skip (b : Bool) (p : Str) (rest : List Str) (st : List Str)
    (h : p = [] ∨ p = ['.']) : procParts b (p :: rest) st = procParts b rest st := by
  simp only [procParts]
  rw [if_pos h]

theorem procParts_push (b : Bool) (p : Str) (rest : List Str) (st : List Str)
    (h1 : ¬(p = [] ∨ p = ['.'])) (h2 : p ≠ dd) :
    procParts b (p :: rest) st = procParts b rest (p :: st) := by
  simp only [procParts]
  rw [if_neg h1, if_neg h2]

theorem procParts_dd_pop (b : Bool) (rest : List Str) (t : Str) (st' : List Str)
    (h : t ≠ dd) : procParts b (dd :: rest) (t :: st') = procParts b rest st' := by
  simp only [procParts]
  rw [if_neg (by simp [dd]), if_pos trivial, if_pos h]

theorem procParts_dd_nil_t (rest : List Str) :
    procParts true (dd :: rest) [] = procParts true rest [] := by
  simp only [procParts]
  rw [if_neg (by simp [dd]), if_pos trivial]
  simp

theorem procParts_dd_nil_f (rest : List Str) :
    procParts false (dd :: rest) [] = procParts false rest [dd] := by
  simp only [procParts]
  rw [if_neg (by simp [dd]), if_pos trivial]
  simp

theorem procParts_dd_dd_t (rest : List Str) (st' : List Str) :
    procParts true (dd :: rest) (dd :: st') = procParts true rest (dd :: st') := by
  simp only [procParts]
  rw [if_neg (by simp [dd]), if_pos trivial, if_neg (by simp)]
  simp

theorem procParts_dd_dd_f (rest : List Str) (st' : List Str) :
    procParts false (dd :: rest) (dd :: st') = procParts false rest (dd :: dd :: st') := by
  simp only [procParts]
  rw [if_neg (by simp [dd]), if_pos trivial, if_neg (by simp)]
  simp

theorem procParts_goods (b : Bool) (segs : List Str) (st : List Str)
    (h : ∀ s ∈ segs, goodSeg s) : procParts b segs st = segs.reverse ++ st := by
  induction segs generalizing st with
  | nil => simp [procParts]
  | cons s rest ih =>
    have hs := h s (List.mem_cons_self s _)
    have hrest : ∀ x ∈ rest, goodSeg x := fun x hx => h x (List.mem_cons_of_mem s hx)
    obtain ⟨h1, h2, h3, _, _⟩ := hs
    rw [procParts_push b s rest st (by simp [h1, h2]) h3, ih (s :: st) hrest]
    simp

theorem procParts_dds (k : Nat) (rest : List Str) (j : Nat) :
    procParts false (List.replicate k dd ++ rest) (List.replicate j dd) =
      procParts false rest (List.replicate (k + j) dd) := by
  induction k generalizing j with
  | zero => simp
  | succ k ih =>
    rw [List.replicate_succ, List.cons_append]
    cases j with
    | zero =>
      rw [show List.replicate 0 dd = ([] : List Str) from rfl, procParts_dd_nil_f]
      have h1 := ih (j := 1)
      rw [show List.replicate 1 dd = [dd] from rfl] at h1
      rw [h1]
    | succ j =>
      rw [List.replicate_succ, procParts_dd_dd_f]
      have h2 := ih (j := j + 2)
      rw [show dd :: dd :: List.replicate j dd = List.replicate (j + 2) dd from by
        simp [List.replicate_succ], h2]
      rw [show k + (j + 2) = k + 1 + (j + 1) from by omega]

/-- The invariant of the `normalizePath` stack: plain segments on top of a
run of `..` segments, the latter only for relative paths. -/
def StackInv (b : Bool) (st : List Str) : Prop :=
  ∃ gs k, st = gs ++ List.replicate k dd ∧ (∀ s ∈ gs, goodSeg s) ∧ (b = true → k = 0)

theorem procParts_inv (b : Bool) (parts : List Str) (st : List Str)
    (hparts : ∀ s ∈ parts, '/' ∉ s ∧ '\\' ∉ s) (hst : StackInv b st) :
    StackInv b (procParts b parts st) := by
  induction parts generalizing st with
  | nil => simpa [procParts] using hst
  | cons p rest ih =>
    have hp := hparts p (List.mem_cons_self p _)
    have hrest : ∀ s ∈ rest, '/' ∉ s ∧ '\\' ∉ s :=
      fun s hs => hparts s (List.mem_cons_of_mem p hs)
    by_cases hskip : p = [] ∨ p = ['.']
    · rw [procParts_skip b p rest st hskip]
      exact ih st hrest hst
    · by_cases hdd : p = dd
      · subst hdd
        obtain ⟨gs, k, hsteq, hgs, hk⟩ := hst
        cases gs with
        | cons g gs' =>
          have hgdd : g ≠ dd := (hgs g (List.mem_cons_self g _)).2.2.1
          rw [hsteq, List.cons_append, procParts_dd_pop b rest g _ hgdd]
          exact ih _ hrest ⟨gs', k, rfl, fun s hs => hgs s (List.mem_cons_of_mem g hs), hk⟩
        | nil =>
          cases k with
          | zero =>
            rw [hsteq]
            rw [show ([] ++ List.replicate 0 dd : List Str) = [] from rfl]
            cases b with
            | true =>
              rw [procParts_dd_nil_t]
              exact ih _ hrest ⟨[], 0, by simp, by simp, by simp⟩
            | false =>
              rw [procParts_dd_nil_f]
              refine ih _ hrest ⟨[], 1, ?_, by simp, by simp⟩
              simp
          | succ k =>
            rw [hsteq, List.nil_append, List.replicate_succ]
            cases b with
            | true =>
              rw [procParts_dd_dd_t]
              refine ih _ hrest ⟨[], k + 1, ?_, by simp, hk⟩
              simp [List.replicate_succ]
            | false =>
              rw [procParts_dd_dd_f]
              refine ih _ hrest ⟨[], k + 2, ?_, by simp, by simp⟩
              simp [List.replicate_succ]
      · obtain ⟨gs, k, hsteq, hgs, hk⟩ := hst
        have hpg : goodSeg p := by
          refine ⟨?_, ?_, hdd, hp.1, hp.2⟩
          · intro hcon
            exact hskip (Or.inl hcon)
          · intro hcon
            exact hskip (Or.inr hcon)
        rw [procParts_push b p rest st hskip hdd]
        refine ih _ hrest ⟨p :: gs, k, ?_, ?_, hk⟩
        · rw [hsteq]
          simp
        · intro s hs
          rcases List.mem_cons.mp hs with h | h
          · exact h ▸ hpg
          · exact hgs s h

theorem replBS_no_bs (l : Str) : '\\' ∉ replBS l := by
  intro h
  rcases List.mem_map.mp h with ⟨a, _, ha⟩
  by_cases hab : a = '\\' <;> simp [hab] at ha

theorem collapse_subset (l : Str) : ∀ c ∈ collapse l, c ∈ l := by
  induction l with
  | nil => simp [collapse]
  | cons c rest ih =>
    rw [collapse]
    split
    · intro x hx
      exact List.mem_cons_of_mem _ (ih x hx)
    · intro x hx
      rcases List.mem_cons.mp hx with h | h
      · exact h ▸ List.mem_cons_self _ _
      · exact List.mem_cons_of_mem _ (ih x h)

/-- The normal forms `normalizePath` can output: root, current directory, an
absolute path of plain segments, or a run of `..` segments followed by plain
segments. -/
def NormalForm (O : Str) : Prop :=
  O = ['/'] ∨ O = ['.'] ∨
  (∃ segs, segs ≠ [] ∧ (∀ s ∈ segs, goodSeg s) ∧ O = renderAbs segs) ∨
  (∃ k gs, (k ≠ 0 ∨ gs ≠ []) ∧ (∀ s ∈ gs, goodSeg s) ∧
    O = joinSegs (List.replicate k dd ++ gs))

theorem normalizePath_shape (p : Str) : NormalForm (normalizePath p) := by
  by_cases hp : p = []
  · subst hp
    left
    rfl
  · rw [normalizePath, if_neg hp]
    simp only []
    generalize hn : collapse (replBS p) = n
    have hparts : ∀ s ∈ splitSlash n, '/' ∉ s ∧ '\\' ∉ s := by
      intro s hs
      refine ⟨mem_splitSlash_no_slash n s hs, ?_⟩
      intro hbs
      have hsub := mem_splitSlash_subset n s hs '\\' hbs
      rw [← hn] at hsub
      exact replBS_no_bs p (collapse_subset (replBS p) '\\' hsub)
    generalize hb : (decide (n.head? = some '/') : Bool) = isAbs
    have hinv := procParts_inv isAbs (splitSlash n) [] hparts ⟨[], 0, by simp, by simp, by simp⟩
    obtain ⟨gs, k, hst, hgs, hk⟩ := hinv
    rw [hst]
    have hrev : (gs ++ List.replicate k dd).reverse = List.replicate k dd ++ gs.reverse := by
      simp
    rw [hrev]
    have hgsr : ∀ s ∈ gs.reverse, goodSeg s := by
      intro s hs
      exact hgs s (List.mem_reverse.mp hs)
    cases isAbs with
    | true =>
      rw [hk rfl] at *
      simp only [List.replicate, List.nil_append, if_true]
      cases hgr : gs.reverse with
      | nil =>
        left
        simp [joinSegs, hgr]
      | cons g grest =>
        right; right; left
        refine ⟨gs.reverse, by simp [hgr], hgsr, ?_⟩
        have hne : joinSegs gs.reverse ≠ [] := by
          refine joinSegs_ne_nil _ (by simp [hgr]) ?_
          intro s hs
          exact (hgsr s hs).1
        rw [if_neg (by simp)]
        rw [renderAbs, hgr]
    | false =>
      simp only [if_false, Bool.false_eq_true]
      by_cases hempty : k = 0 ∧ gs = []
      · right; left
        obtain ⟨hk0, hgs0⟩ := hempty
        subst hk0
        subst hgs0
        simp [joinSegs]
      · right; right; right
        refine ⟨k, gs.reverse, ?_, hgsr, ?_⟩
        · by_cases hk0 : k = 0
          · right
            intro hcon
            exact hempty ⟨hk0, by simpa using congrArg List.reverse hcon⟩
          · exact Or.inl hk0
        · have hne : joinSegs (List.replicate k dd ++ gs.reverse) ≠ [] := by
            refine joinSegs_ne_nil _ ?_ ?_
            · intro hcon
              rcases List.append_eq_nil.mp hcon with ⟨h1, h2⟩
              refine hempty ⟨?_, by simpa using congrArg List.reverse h2⟩
              cases k with
              | zero => rfl
              | succ k => simp [List.replicate_succ] at h1
            · intro s hs
              rcases List.mem_append.mp hs with h | h
              · rw [List.eq_of_mem_replicate h]
                simp [dd]
              · exact (hgsr s h).1
          rw [if_neg hne]

theorem normalizePath_fix (O : Str) (h : NormalForm O) : normalizePath O = O := by
  rcases h with h | h | ⟨segs, hne, hgood, h⟩ | ⟨k, gs, hne, hgood, h⟩
  · subst h
    decide
  · subst h
    decide
  · subst h
    have helems : ∀ s ∈ segs, s ≠ [] ∧ '/' ∉ s :=
      fun s hs => ⟨(hgood s hs).1, (hgood s hs).2.2.2.1⟩
    have hnobs : '\\' ∉ renderAbs segs := by
      intro hmem
      rcases List.mem_cons.mp hmem with hc | hc
      · simp at hc
      · rcases joinSegs_chars segs '\\' hc with hc2 | ⟨s, hs, hcs⟩
        · simp at hc2
        · exact (hgood s hs).2.2.2.2 hcs
    have hds : hasDS (renderAbs segs) = false := by
      refine hasDS_cons_of '/' (joinSegs segs) ?_ (hasDS_joinSegs segs helems)
      intro hcon
      exact joinSegs_head segs helems hcon.2
    rw [normalizePath, if_neg (by simp [renderAbs])]
    simp only []
    rw [replBS_eq_self _ hnobs, collapse_eq_self _ hds]
    rw [show (renderAbs segs).head? = some '/' from rfl]
    simp only [decide_eq_true_eq, if_true]
    rw [show splitSlash (renderAbs segs) = [] :: splitSlash (joinSegs segs) from
      splitSlash_slash_cons _]
    rw [splitSlash_joinSegs segs hne (fun s hs => (helems s hs).2)]
    rw [procParts_skip _ _ _ _ (Or.inl rfl), procParts_goods _ segs [] hgood]
    simp only [List.append_nil, List.reverse_reverse, decide_True, if_true]
    rw [if_neg (by simp [renderAbs])]
    rfl
  · subst h
    have helems : ∀ s ∈ List.replicate k dd ++ gs, s ≠ [] ∧ '/' ∉ s := by
      intro s hs
      rcases List.mem_append.mp hs with hrep | hg
      · rw [List.eq_of_mem_replicate hrep]
        simp [dd]
      · exact ⟨(hgood s hg).1, (hgood s hg).2.2.2.1⟩
    have hlne : List.replicate k dd ++ gs ≠ [] := by
      intro hcon
      rcases List.append_eq_nil.mp hcon with ⟨h1, h2⟩
      rcases hne with hk | hg
      · cases k with
        | zero => exact hk rfl
        | succ k => simp [List.replicate_succ] at h1
      · exact hg h2
    have hOne : joinSegs (List.replicate k dd ++ gs) ≠ [] :=
      joinSegs_ne_nil _ hlne (fun s hs => (helems s hs).1)
    have hnobs : '\\' ∉ joinSegs (List.replicate k dd ++ gs) := by
      intro hmem
      rcases joinSegs_chars _ '\\' hmem with hc2 | ⟨s, hs, hcs⟩
      · simp at hc2
      · rcases List.mem_append.mp hs with hrep | hg
        · rw [List.eq_of_mem_replicate hrep] at hcs
          simp [dd] at hcs
        · exact (hgood s hg).2.2.2.2 hcs
    have hds : hasDS (joinSegs (List.replicate k dd ++ gs)) = false :=
      hasDS_joinSegs _ helems
    have hhead : ¬(joinSegs (List.replicate k dd ++ gs)).head? = some '/' :=
      joinSegs_head _ helems
    rw [normalizePath, if_neg hOne]
    simp only []
    rw [replBS_eq_self _ hnobs, collapse_eq_self _ hds]
    rw [splitSlash_joinSegs _ hlne (fun s hs => (helems s hs).2)]
    simp only [decide_eq_false hhead, Bool.false_eq_true, if_false]
    have hproc : procParts false (List.replicate k dd ++ gs) [] =
        gs.reverse ++ List.replicate k dd := by
      have h0 := procParts_dds k gs 0
      rw [show List.replicate 0 dd = ([] : List Str) from rfl] at h0
      rw [h0, procParts_goods false gs _ hgood]
      simp
    rw [hproc]
    rw [show (gs.reverse ++ List.replicate k dd).reverse =
      List.replicate k dd ++ gs from by simp]
    rw [if_neg hOne]

/-- C7: `normalizePath` is idempotent: for every input path string `p`,
`normalizePath (normalizePath p) = normalizePath p`. -/
theorem c7_normalizePath_idempotent (p : Str) :
    normalizePath (normalizePath p) = normalizePath p :=
  normalizePath_fix (normalizePath p) (normalizePath_shape p)

theorem asString_data (l : List Char) : l.asString.data = l := rfl

/- ===================== claim C1 ===================== -/

/-- The C1 failing input: `/d1` is a directory containing file `f` (content
`"x"` = [120]) and symlink `link` with *relative* target `f`; the root also
contains a file `f` (content `"w"` = [119]). -/
def fsC1 : VFS :=
  ⟨[(str "d1", .dir [(str "f", .file [120]), (str "link", .symlink (str "f"))]),
    (str "f", .file [119])], 40, [], 0⟩

/-- C1: (code_bug evidence) the spec says a relative symlink target resolves
against the directory containing the symlink, so reading `/d1/link`
(target `f`) should return the content of `/d1/f` (`[120]`).  The code
computes `join(dirname('/' + segments.slice(0, i).join('/')), target)`,
which strips one directory level too many and resolves the target against
the *parent* of the containing directory: reading `/d1/link` returns the
content of `/f` (`[119]`) instead. -/
theorem c1_relative_symlink_resolved_against_grandparent :
    readFile fsC1 (str "/d1/link") = .ok [119] ∧
    readFile fsC1 (str "/d1/f") = .ok [120] ∧
    readFile fsC1 (str "/f") = .ok [119] := by
  refine ⟨?_, ?_, ?_⟩ <;>
  simp [fsC1, readFile, resolveLoc, resolveLocFuel, walkLoc,
    resolvePath, validatePath, normalizePath, str, splitPath, splitSlash, collapse, replBS, dd,
    procParts, joinSegs, dirname, basename, lastSlashIdx, lastSlashIdxAux, segValid, isCtl,
    join2, nodeAtLoc, nodeAt, getChild, VFS.rootNode, reservedNames]

/- ===================== claim C10 ===================== -/

/-- C10: `deleteDirectory('/', recursive=false)` always raises
`DirectoryNotEmpty` (for every state, in particular an empty root) and
leaves the state unchanged; `deleteDirectory('/', recursive=true)` succeeds
and removes every child of the root while the root directory itself
persists (the resulting state is the same state with an empty root child
map — the unique root is never deleted). -/
theorem c10_deleteDirectory_root (fs : VFS) :
    deleteDirectory fs (str "/") false = (fs, .error .directoryNotEmpty) ∧
    deleteDirectory fs (str "/") true = (setRoot fs [], .ok ()) := by
  constructor <;>
  simp [deleteDirectory, resolvePath, validatePath, normalizePath, str, splitPath,
    splitSlash, collapse, replBS, dd, procParts, joinSegs, dirname, basename,
    lastSlashIdx, lastSlashIdxAux, segValid, isCtl, reservedNames]

/- ===================== claim C2 ===================== -/

/-- C2 failing input, built by the public operations: write `/d/f`, snapshot,
then delete the directory `/d` recursively. -/
def fsC2 : VFS :=
  (deleteDirectory (createSnapshot (writeFile emptyVFS (str "/d/f") [104]).1).1
    (str "/d") true).1

/-- C2: (code_bug evidence) after snapshotting a tree that holds the file
`/d/f` and deleting the whole directory `/d`, the claim requires
`diff(snapshot)` to contain a `Deleted` record for `/d/f`; the deletion
pass of `computeDiff` never recurses into a directory that is absent from
`to`, so the diff is empty even though the snapshot still holds the file
and the live tree holds nothing. -/
theorem c2_deleted_directory_contents_unreported :
    diffOp fsC2 (some (str "snapshot-1")) none = .ok [] ∧
    assocGet fsC2.snapshots (str "snapshot-1") =
      some [(str "d", .dir [(str "f", .file [104])])] ∧
    fsC2.rootChildren = [] := by
  refine ⟨?_, ?_, ?_⟩ <;>
  simp [fsC2, diffOp, diffChildren, diffTo, diffDeleted, createSnapshot, assocGet, assocSet,
    deleteDirectory, writeFile, writeFileInternal, emptyVFS, resolveLoc, resolveLocFuel, walkLoc,
    resolvePath, validatePath, normalizePath, str, splitPath, splitSlash, collapse, replBS, dd,
    procParts, joinSegs, dirname, basename, lastSlashIdx, lastSlashIdxAux, segValid, isCtl,
    createDirectory, createDirGo, getDirectoryLoc, dirChildrenAt, nodeAtLoc, nodeAt, getChild,
    setChild, removeChild, modifyDir, modifyDirAt, setNode, setNodeAt, setRoot, VFS.rootNode,
    reservedNames, Nat.repr, Nat.toDigits, Nat.toDigitsCore, Nat.digitChar, asString_data]

/- ===================== claim C6 ===================== -/

/-- C6: (code_bug evidence) `writeFile('a', c)` succeeds — `resolvePath('a')`
makes the parent path `dirname('a') = '.'`, and `createDirectory('.')`
creates a directory literally named `'.'` under the root, in which the file
is stored — but `readFile('a')` resolves the segment `a` from the root and
raises `FileNotFound`.  The write-then-read round trip of the claim fails. -/
theorem c6_write_read_roundtrip_fails_on_relative_path :
    (writeFile emptyVFS (str "a") [104]).2 = .ok () ∧
    readFile (writeFile emptyVFS (str "a") [104]).1 (str "a") = .error .fileNotFound ∧
    (writeFile emptyVFS (str "a") [104]).1.rootChildren =
      [(str ".", .dir [(str "a", .file [104])])] := by
  refine ⟨?_, ?_, ?_⟩ <;>
  simp [writeFile, writeFileInternal, emptyVFS, readFile, resolveLoc, resolveLocFuel, walkLoc,
    resolvePath, validatePath, normalizePath, str, splitPath, splitSlash, collapse, replBS, dd,
    procParts, joinSegs, dirname, basename, lastSlashIdx, lastSlashIdxAux, segValid, isCtl,
    createDirectory, createDirGo, getDirectoryLoc, dirChildrenAt, nodeAtLoc, nodeAt, getChild,
    setChild, modifyDir, modifyDirAt, setNode, setNodeAt, setRoot, VFS.rootNode, reservedNames]

/- ===================== claim C3 ===================== -/

theorem resolveLoc_invalid (fs : VFS) (p : Str) (follow : Bool)
    (hv : validatePath p = .error .invalidPath) :
    resolveLoc fs p follow = .error .invalidPath := by
  rw [resolveLoc, show fs.maxSymlinkDepth + 2 - 0 = fs.maxSymlinkDepth + 1 + 1 from by omega]
  simp [resolveLocFuel, resolvePath, hv]

/-- C3 counterexample: in temp-suffix atomic mode, `writeFile('/f.', c,
{tempSuffix: '.tmp'})` writes the temp file `/f..tmp` (a valid path) first
and only then validates `/f.` inside `moveFile`; the call raises
`InvalidPath` — `/f.` ends in a period — but the tree has gained the temp
file, so the tree after the call differs from the tree before. -/
theorem c3_counterexample_atomic_write_leaves_temp_file :
    validatePath (str "/f.") = .error .invalidPath ∧
    (writeFileAtomic emptyVFS (str "/f.") [104] (str ".tmp")).2 = .error .invalidPath ∧
    (writeFileAtomic emptyVFS (str "/f.") [104] (str ".tmp")).1.rootChildren =
      [(str "f..tmp", .file [104])] := by
  refine ⟨by decide, ?_, ?_⟩ <;>
  simp [writeFileAtomic, writeFile, writeFileInternal, emptyVFS, readFile, moveFile, copyFile,
    deleteFile, resolveLoc, resolveLocFuel, walkLoc,
    resolvePath, validatePath, normalizePath, str, splitPath, splitSlash, collapse, replBS, dd,
    procParts, joinSegs, dirname, basename, lastSlashIdx, lastSlashIdxAux, segValid, isCtl,
    createDirectory, createDirGo, getDirectoryLoc, dirChildrenAt, nodeAtLoc, nodeAt, getChild,
    setChild, removeChild, modifyDir, modifyDirAt, setNode, setNodeAt, setRoot, VFS.rootNode,
    reservedNames]

/-- C3 (amended): for `writeFile` in its plain (non-atomic) mode,
`appendFile`, `deleteFile`, `createDirectory`, `deleteDirectory`,
`createSymlink` (link path), and `copyFile`/`moveFile` with an invalid
source, an argument path failing validation makes the call raise
`InvalidPath` with the state unchanged; `copyFile`/`moveFile` with a
readable source and an invalid destination also raise `InvalidPath`
unchanged.  (Excluded by the counterexample: temp-suffix atomic `writeFile`
validates the final path only after writing the temp file; and a composite
operation surfaces its first step's error, so an unreadable source
preempts the destination's `InvalidPath`.) -/
theorem c3_invalid_path_eager_validation (fs : VFS) (p dst target src : Str) (c : List Nat)
    (recursive : Bool) (hv : validatePath p = .error .invalidPath) :
    writeFile fs p c = (fs, .error .invalidPath) ∧
    appendFile fs p c = (fs, .error .invalidPath) ∧
    deleteFile fs p = (fs, .error .invalidPath) ∧
    createDirectory fs p recursive = (fs, .error .invalidPath) ∧
    deleteDirectory fs p recursive = (fs, .error .invalidPath) ∧
    createSymlink fs target p = (fs, .error .invalidPath) ∧
    copyFile fs p dst = (fs, .error .invalidPath) ∧
    moveFile fs p dst = (fs, .error .invalidPath) ∧
    (∀ content, readFile fs src = .ok content →
      copyFile fs src p = (fs, .error .invalidPath) ∧
      moveFile fs src p = (fs, .error .invalidPath)) := by
  have hrp : resolvePath p = .error .invalidPath := by
    simp [resolvePath, hv]
  have hrl : ∀ follow, resolveLoc fs p follow = .error .invalidPath :=
    fun follow => resolveLoc_invalid fs p follow hv
  refine ⟨?_, ?_, ?_, ?_, ?_, ?_, ?_, ?_, ?_⟩
  · simp [writeFile, writeFileInternal, hrp]
  · simp [appendFile, hrl]
  · simp [deleteFile, hrp]
  · simp [createDirectory, hrp]
  · simp [deleteDirectory, hrp]
  · simp [createSymlink, hrp]
  · simp [copyFile, readFile, hrl]
  · simp [moveFile, copyFile, readFile, hrl]
  · intro content hread
    have hw : writeFile fs p content = (fs, .error .invalidPath) := by
      simp [writeFile, writeFileInternal, hrp]
    constructor
    · simp [copyFile, hread, hw]
    · simp [moveFile, copyFile, hread, hw]

/-- C3 witness: instantiating the amended claim at the invalid path `/x.`,
with a one-file state whose file `/s` is readable. -/
theorem c3_invalid_path_eager_validation_witness :
    validatePath (str "/x.") = .error .invalidPath ∧
    (writeFile ⟨[(str "s", .file [1])], 40, [], 0⟩ (str "/x.") [7] =
      (⟨[(str "s", .file [1])], 40, [], 0⟩, .error .invalidPath) ∧
     appendFile ⟨[(str "s", .file [1])], 40, [], 0⟩ (str "/x.") [7] =
      (⟨[(str "s", .file [1])], 40, [], 0⟩, .error .invalidPath) ∧
     deleteFile ⟨[(str "s", .file [1])], 40, [], 0⟩ (str "/x.") =
      (⟨[(str "s", .file [1])], 40, [], 0⟩, .error .invalidPath) ∧
     createDirectory ⟨[(str "s", .file [1])], 40, [], 0⟩ (str "/x.") false =
      (⟨[(str "s", .file [1])], 40, [], 0⟩, .error .invalidPath) ∧
     deleteDirectory ⟨[(str "s", .file [1])], 40, [], 0⟩ (str "/x.") false =
      (⟨[(str "s", .file [1])], 40, [], 0⟩, .error .invalidPath) ∧
     createSymlink ⟨[(str "s", .file [1])], 40, [], 0⟩ (str "/t") (str "/x.") =
      (⟨[(str "s", .file [1])], 40, [], 0⟩, .error .invalidPath) ∧
     copyFile ⟨[(str "s", .file [1])], 40, [], 0⟩ (str "/x.") (str "/d") =
      (⟨[(str "s", .file [1])], 40, [], 0⟩, .error .invalidPath) ∧
     moveFile ⟨[(str "s", .file [1])], 40, [], 0⟩ (str "/x.") (str "/d") =
      (⟨[(str "s", .file [1])], 40, [], 0⟩, .error .invalidPath) ∧
     (∀ content, readFile ⟨[(str "s", .file [1])], 40, [], 0⟩ (str "/s") = .ok content →
       copyFile ⟨[(str "s", .file [1])], 40, [], 0⟩ (str "/s") (str "/x.") =
        (⟨[(str "s", .file [1])], 40, [], 0⟩, .error .invalidPath) ∧
       moveFile ⟨[(str "s", .file [1])], 40, [], 0⟩ (str "/s") (str "/x.") =
        (⟨[(str "s", .file [1])], 40, [], 0⟩, .error .invalidPath))) :=
  ⟨by decide,
   c3_invalid_path_eager_validation ⟨[(str "s", .file [1])], 40, [], 0⟩ (str "/x.")
     (str "/d") (str "/t") (str "/s") [7] false (by decide)⟩

/- ===================== claim C4 ===================== -/

theorem lastSlashIdxAux_no_slash (l : Str) (h : '/' ∉ l) :
    ∀ i acc, lastSlashIdxAux l i acc = acc := by
  induction l with
  | nil => intro i acc; rfl
  | cons c rest ih =>
    intro i acc
    have hc : c ≠ '/' := fun hh => h (hh ▸ List.mem_cons_self c rest)
    have hrest : '/' ∉ rest := fun hh => h (List.mem_cons_of_mem c hh)
    rw [lastSlashIdxAux, if_neg hc, ih hrest]

theorem normalizePath_single (a : Str) (hg : goodSeg a) :
    normalizePath ('/' :: a) = '/' :: a := by
  have h := normalizePath_fix ('/' :: a)
    (Or.inr (Or.inr (Or.inl ⟨[a], by simp, by simpa using hg, rfl⟩)))
  simpa [renderAbs, joinSegs] using h

theorem resolvePath_single (a : Str) (hg : goodSeg a) (hv : validatePath ('/' :: a) = .ok ()) :
    resolvePath ('/' :: a) = .ok ⟨'/' :: a, ['/'], a, [a], false⟩ := by
  obtain ⟨h1, h2, h3, h4, h5⟩ := hg
  have hnorm := normalizePath_single a ⟨h1, h2, h3, h4, h5⟩
  have hidx : lastSlashIdx ('/' :: a) = some 0 := by
    rw [lastSlashIdx, lastSlashIdxAux, if_pos rfl, lastSlashIdxAux_no_slash a h4]
  have hd : dirname ('/' :: a) = ['/'] := by
    rw [dirname, hnorm]
    rw [if_neg (by simpa using h1), hidx]
  have hb : basename ('/' :: a) = a := by
    rw [basename, hnorm]
    rw [if_neg (by simpa using h1), hidx]
    rfl
  have hs : splitPath ('/' :: a) = [a] := by
    rw [splitPath, hnorm, splitSlash_slash_cons, splitSlash_noSlash a h4]
    simp [List.filter, h1]
  rw [resolvePath, hv]
  simp only []
  rw [hnorm]
  rw [if_neg (by simpa using h1)]
  rw [hd, hb, hs]

theorem walkLoc_root_symlink_err (fs : VFS) (fuel depth : Nat) (x target : Str) (e : VErr)
    (hc : getChild fs.rootChildren x = some (.symlink target))
    (ht : target.head? = some '/')
    (he : resolveLocFuel fs fuel target true (depth + 1) = .error e) :
    walkLoc fs fuel [] true depth [x] [] = .error e := by
  simp only [walkLoc]
  rw [show nodeAt fs.rootNode [] = some (VNode.dir fs.rootChildren) from rfl]
  simp only []
  rw [hc]
  simp only []
  rw [if_pos (Or.inl trivial), if_pos ht, he]

/-- If the walk of `rest` from `cur` meets a first symlink substituting to
`q` and resolving `q` one level deeper fails, `walkLoc` propagates that
failure: the plain-directory steps before the symlink change nothing, and
in the symlink branch (any position, following enabled) the recursive
resolution's error is returned as is. -/
theorem walkLoc_firstLink_err (fs : VFS) (q : Str) :
    ∀ (rest cur done : List Str) (fuel d : Nat) (e : VErr),
      firstLinkTarget fs cur rest done = some q →
      resolveLocFuel fs fuel q true (d + 1) = .error e →
      walkLoc fs fuel cur true d rest done = .error e := by
  intro rest
  induction rest with
  | nil =>
    intro cur done fuel d e hfl he
    simp [firstLinkTarget] at hfl
  | cons seg rest2 ih =>
    intro cur done fuel d e hfl he
    rw [firstLinkTarget] at hfl
    rw [walkLoc.eq_def]
    dsimp only
    cases hn : nodeAt fs.rootNode cur with
    | none =>
      rw [hn] at hfl
      simp at hfl
    | some nd =>
      cases nd with
      | file c =>
        rw [hn] at hfl
        simp at hfl
      | symlink t =>
        rw [hn] at hfl
        simp at hfl
      | dir cs =>
        rw [hn] at hfl
        dsimp only at hfl ⊢
        cases hc : getChild cs seg with
        | none =>
          rw [hc] at hfl
          simp at hfl
        | some child =>
          cases child with
          | file c =>
            rw [hc] at hfl
            dsimp only at hfl ⊢
            exact ih (cur ++ [seg]) (done ++ [seg]) fuel d e hfl he
          | dir cs2 =>
            rw [hc] at hfl
            dsimp only at hfl ⊢
            exact ih (cur ++ [seg]) (done ++ [seg]) fuel d e hfl he
          | symlink target =>
            rw [hc] at hfl
            dsimp only at hfl ⊢
            rw [if_pos (Or.inl rfl)]
            have hq : (if target.head? = some '/' then target
                else join2 (dirname ('/' :: joinSegs done)) target) = q := by
              simpa using hfl
            rw [hq, he]

/-- **C4**: for every family `P` of paths closed under the resolver's first
symlink substitution — each `p ∈ P` resolves to a valid non-root path
whose segment walk, through existing plain directories, reaches a symlink
whose substituted target path (an absolute target as is, a relative one
joined per the resolution rule) lies again in `P` — resolving any `p ∈ P`
with following enabled exhausts the recursion depth and raises
`SymlinkLoop`, for `resolveNode` itself and for `readFile`; it neither
returns a node nor not-found (and the model terminates by construction).
Such a family is exactly the orbit of any set of symlinks whose targets
form a cycle under the resolution rule — at any directory level, with
absolute, relative or multi-segment targets — together with every path
whose traversal leads into the cycle. -/
theorem c4_symlink_cycle_loops (fs : VFS) (P : Str → Prop)
    (hP : ∀ p, P p → ∃ r, resolvePath p = .ok r ∧ r.isRoot = false ∧
      ∃ q, P q ∧ firstLinkTarget fs [] r.segments [] = some q) :
    ∀ p, P p → resolveLoc fs p true = .error .symlinkLoop ∧
      readFile fs p = .error .symlinkLoop := by
  have key : ∀ fuel d p, P p → resolveLocFuel fs fuel p true d = .error .symlinkLoop := by
    intro fuel
    induction fuel with
    | zero =>
      intro d p hp
      simp [resolveLocFuel]
    | succ fuel ih =>
      intro d p hp
      obtain ⟨r, hr, hroot, q, hq, hfl⟩ := hP p hp
      simp only [resolveLocFuel]
      by_cases hd : fs.maxSymlinkDepth < d
      · rw [if_pos hd]
      · rw [if_neg hd, hr]
        simp only []
        rw [hroot]
        rw [if_neg (by simp)]
        exact walkLoc_firstLink_err fs q r.segments [] [] fuel d .symlinkLoop hfl
          (ih (d + 1) q hq)
  intro p hp
  have h1 : resolveLoc fs p true = .error .symlinkLoop := by
    rw [resolveLoc]
    exact key _ 0 p hp
  refine ⟨h1, ?_⟩
  rw [readFile, h1]

/-- C4 witness.  First the claim's own instance: `createSymlink('/b','/a')`
then `createSymlink('/a','/b')` produces exactly the two root symlinks
`a ↦ /b`, `b ↦ /a`, and reading `/a` raises `SymlinkLoop`.  Then two
further cycle shapes in the claim's scope: a nested cycle with a
multi-segment target (`/a ↦ /d/b`, `/d/b ↦ /a`) entered through the plain
directory `d`, and a relative-target cycle (`/g` with relative target `g`,
which the resolution rule joins back to `/g`). -/
theorem c4_symlink_cycle_loops_witness :
    (createSymlink ((createSymlink emptyVFS (str "/b") (str "/a")).1)
        (str "/a") (str "/b")).1.rootChildren =
      [(str "a", .symlink (str "/b")), (str "b", .symlink (str "/a"))] ∧
    readFile ⟨[(str "a", .symlink (str "/b")), (str "b", .symlink (str "/a"))], 40, [], 0⟩
      (str "/a") = .error .symlinkLoop ∧
    readFile ⟨[(str "a", .symlink (str "/d/b")),
        (str "d", .dir [(str "b", .symlink (str "/a"))])], 40, [], 0⟩
      (str "/d/b") = .error .symlinkLoop ∧
    readFile ⟨[(str "g", .symlink (str "g"))], 40, [], 0⟩
      (str "/g") = .error .symlinkLoop := by
  refine ⟨?_, ?_, ?_, ?_⟩
  · simp [createSymlink, emptyVFS, resolveLoc, resolveLocFuel, walkLoc,
      resolvePath, validatePath, normalizePath, str, splitPath, splitSlash, collapse, replBS, dd,
      procParts, joinSegs, dirname, basename, lastSlashIdx, lastSlashIdxAux, segValid, isCtl,
      createDirectory, createDirGo, getDirectoryLoc, dirChildrenAt, nodeAtLoc, nodeAt, getChild,
      setChild, modifyDir, modifyDirAt, setRoot, VFS.rootNode, reservedNames]
  · exact (c4_symlink_cycle_loops
      ⟨[(str "a", .symlink (str "/b")), (str "b", .symlink (str "/a"))], 40, [], 0⟩
      (fun p => p = str "/a" ∨ p = str "/b")
      (by
        intro p hp
        rcases hp with rfl | rfl
        · exact ⟨⟨str "/a", str "/", str "a", [str "a"], false⟩, by decide, rfl,
            str "/b", Or.inr rfl, by decide⟩
        · exact ⟨⟨str "/b", str "/", str "b", [str "b"], false⟩, by decide, rfl,
            str "/a", Or.inl rfl, by decide⟩)
      (str "/a") (Or.inl rfl)).2
  · exact (c4_symlink_cycle_loops
      ⟨[(str "a", .symlink (str "/d/b")),
        (str "d", .dir [(str "b", .symlink (str "/a"))])], 40, [], 0⟩
      (fun p => p = str "/d/b" ∨ p = str "/a")
      (by
        intro p hp
        rcases hp with rfl | rfl
        · exact ⟨⟨str "/d/b", str "/d", str "b", [str "d", str "b"], false⟩, by decide, rfl,
            str "/a", Or.inr rfl, by decide⟩
        · exact ⟨⟨str "/a", str "/", str "a", [str "a"], false⟩, by decide, rfl,
            str "/d/b", Or.inl rfl, by decide⟩)
      (str "/d/b") (Or.inl rfl)).2
  · exact (c4_symlink_cycle_loops
      ⟨[(str "g", .symlink (str "g"))], 40, [], 0⟩
      (fun p => p = str "/g")
      (by
        intro p hp
        rcases hp with rfl
        exact ⟨⟨str "/g", str "/", str "g", [str "g"], false⟩, by decide, rfl,
          str "/g", rfl, by decide⟩)
      (str "/g") rfl).2

/- ===================== claim C9 ===================== -/

theorem normalizePath_render (segs : List Str) (hne : segs ≠ [])
    (hgood : ∀ s ∈ segs, goodSeg s) : normalizePath (renderAbs segs) = renderAbs segs :=
  normalizePath_fix _ (Or.inr (Or.inr (Or.inl ⟨segs, hne, hgood, rfl⟩)))

theorem renderAbs_ne_root (segs : List Str) (hne : segs ≠ [])
    (hgood : ∀ s ∈ segs, goodSeg s) : renderAbs segs ≠ ['/'] := by
  intro hcon
  have hj : joinSegs segs = [] := by
    have := congrArg List.tail hcon
    simpa [renderAbs] using this
  exact joinSegs_ne_nil segs hne (fun s hs => (hgood s hs).1) hj

theorem splitPath_render (segs : List Str) (hne : segs ≠ [])
    (hgood : ∀ s ∈ segs, goodSeg s) : splitPath (renderAbs segs) = segs := by
  rw [splitPath, normalizePath_render segs hne hgood, renderAbs, splitSlash_slash_cons,
    splitSlash_joinSegs segs hne (fun s hs => (hgood s hs).2.2.2.1)]
  rw [List.filter]
  simp only [decide_not, ne_eq, decide_True, Bool.not_true]
  exact List.filter_eq_self.mpr (fun s hs => by simp [(hgood s hs).1])

theorem resolvePath_render (segs : List Str) (hne : segs ≠ [])
    (hgood : ∀ s ∈ segs, goodSeg s) (hv : validatePath (renderAbs segs) = .ok ()) :
    ∃ pr, resolvePath (renderAbs segs) = .ok pr ∧ pr.segments = segs ∧ pr.isRoot = false := by
  rw [resolvePath, hv]
  simp only []
  rw [normalizePath_render segs hne hgood]
  rw [if_neg (renderAbs_ne_root segs hne hgood)]
  exact ⟨_, rfl, splitPath_render segs hne hgood, rfl⟩

theorem nodeAt_child (t : VNode) (loc : List Str) (cs : List (Str × VNode)) (n : Str) (v : VNode)
    (h : nodeAt t loc = some (.dir cs)) (hc : getChild cs n = some v) :
    nodeAt t (loc ++ [n]) = some v := by
  induction loc generalizing t with
  | nil =>
    simp only [nodeAt] at h
    injection h with h
    subst h
    simp [nodeAt, hc]
  | cons q rest ih =>
    cases t with
    | file c => simp [nodeAt] at h
    | symlink s => simp [nodeAt] at h
    | dir cs0 =>
      rw [nodeAt] at h
      rw [List.cons_append, nodeAt]
      revert h
      cases hq : getChild cs0 q with
      | none =>
        intro h
        exact Option.noConfusion h
      | some child =>
        intro h
        exact ih child h

theorem walkLoc_plain_final_symlink (fs : VFS) (fuel depth : Nat) (n t : Str)
    (qs : List Str) : ∀ cur done cs cs2, nodeAt fs.rootNode cur = some (VNode.dir cs) →
      plainDirWalk cs qs = some cs2 → getChild cs2 n = some (.symlink t) →
      walkLoc fs fuel cur false depth (qs ++ [n]) done = .ok (some (cur ++ qs ++ [n])) := by
  induction qs with
  | nil =>
    intro cur done cs cs2 hnode hwalk hsym
    rw [show plainDirWalk cs [] = some cs from rfl] at hwalk
    injection hwalk with hwalk
    subst hwalk
    rw [List.nil_append]
    simp only [walkLoc]
    rw [hnode]
    simp only []
    rw [hsym]
    simp only []
    rw [if_neg (by simp)]
    rw [List.append_nil]
  | cons q qs' ih =>
    intro cur done cs cs2 hnode hwalk hsym
    rw [show plainDirWalk cs (q :: qs') = (match getChild cs q with
      | some (.dir cs') => plainDirWalk cs' qs'
      | _ => none) from rfl] at hwalk
    match hq : getChild cs q with
    | none => rw [hq] at hwalk; exact absurd hwalk (by simp)
    | some (.file _) => rw [hq] at hwalk; exact absurd hwalk (by simp)
    | some (.symlink _) => rw [hq] at hwalk; exact absurd hwalk (by simp)
    | some (.dir csq) =>
      rw [hq] at hwalk
      rw [List.cons_append]
      simp only [walkLoc]
      rw [hnode]
      simp only []
      rw [hq]
      simp only []
      have hnode2 : nodeAt fs.rootNode (cur ++ [q]) = some (VNode.dir csq) :=
        nodeAt_child fs.rootNode cur cs q (VNode.dir csq) hnode hq
      rw [ih (cur ++ [q]) (done ++ [q]) csq cs2 hnode2 hwalk hsym]
      simp

/-- C9: `exists(p)` does not follow a symlink at the final path segment: if
the path `/q1/…/qk/n` reaches, through plain existing directories, a child
`n` that is a symlink, then `existsPath` returns `true` — whatever the
symlink's target `t` is (broken targets and target cycles included, the
cases where `readFile` would raise `FileNotFound` or `SymlinkLoop`). -/
theorem c9_exists_does_not_follow_final_symlink (fs : VFS) (qs : List Str) (n t : Str)
    (cs2 : List (Str × VNode))
    (hwalk : plainDirWalk fs.rootChildren qs = some cs2)
    (hsym : getChild cs2 n = some (.symlink t))
    (hgood : ∀ s ∈ qs ++ [n], goodSeg s)
    (hv : validatePath (renderAbs (qs ++ [n])) = .ok ()) :
    existsPath fs (renderAbs (qs ++ [n])) = true := by
  obtain ⟨pr, hpr, hsegs, hroot⟩ := resolvePath_render (qs ++ [n]) (by simp) hgood hv
  rw [existsPath, resolveLoc,
    show fs.maxSymlinkDepth + 2 - 0 = fs.maxSymlinkDepth + 1 + 1 from by omega]
  simp only [resolveLocFuel]
  rw [if_neg (by omega), hpr]
  simp only []
  rw [if_neg (by simp [hroot]), hsegs]
  rw [walkLoc_plain_final_symlink fs (fs.maxSymlinkDepth + 1) 0 n t qs [] []
    fs.rootChildren cs2 rfl hwalk hsym]

/-- C9 witness: a broken root symlink `link → /nope`: `existsPath` is `true`
while `readFile` raises `FileNotFound`. -/
theorem c9_exists_does_not_follow_final_symlink_witness :
    existsPath ⟨[(str "link", .symlink (str "/nope"))], 40, [], 0⟩ (str "/link") = true ∧
    readFile ⟨[(str "link", .symlink (str "/nope"))], 40, [], 0⟩ (str "/link") =
      .error .fileNotFound := by
  constructor
  · have h := c9_exists_does_not_follow_final_symlink
      ⟨[(str "link", .symlink (str "/nope"))], 40, [], 0⟩ [] (str "link") (str "/nope")
      [(str "link", .symlink (str "/nope"))] rfl rfl (by decide) (by decide)
    simpa [renderAbs, joinSegs, str] using h
  · simp [readFile, resolveLoc, resolveLocFuel, walkLoc,
      resolvePath, validatePath, normalizePath, str, splitPath, splitSlash, collapse, replBS, dd,
      procParts, joinSegs, dirname, basename, lastSlashIdx, lastSlashIdxAux, segValid, isCtl,
      join2, nodeAtLoc, nodeAt, getChild, VFS.rootNode, reservedNames]

/- ===================== claim C5 ===================== -/

theorem setRoot_snapshots (fs : VFS) (cs : List (Str × VNode)) :
    (setRoot fs cs).snapshots = fs.snapshots := rfl

theorem modifyDir_snapshots (fs : VFS) (loc : List Str)
    (f : List (Str × VNode) → List (Str × VNode)) :
    (modifyDir fs loc f).snapshots = fs.snapshots := by
  rw [modifyDir]
  split <;> rfl

theorem setNode_snapshots (fs : VFS) (loc : List Str) (v : VNode) :
    (setNode fs loc v).snapshots = fs.snapshots := by
  rw [setNode]
  split <;> rfl

theorem createDirGo_snapshots (recursive : Bool) (segs : List Str) :
    ∀ fs cur cp, (createDirGo fs recursive segs cur cp).1.snapshots = fs.snapshots := by
  induction segs with
  | nil => intro fs cur cp; rfl
  | cons seg rest ih =>
    intro fs cur cp
    simp only [createDirGo]
    split
    · exact ih ..
    · split
      · rfl
      · rfl
      · split
        · exact ih ..
        · rfl
    · rfl
    · split
      · rfl
      · rw [ih ..]
        exact modifyDir_snapshots ..

theorem createDirectory_snapshots (fs : VFS) (p : Str) (recursive : Bool) :
    (createDirectory fs p recursive).1.snapshots = fs.snapshots := by
  rw [createDirectory]
  split
  · rfl
  · split
    · rfl
    · exact createDirGo_snapshots ..

theorem writeFileInternal_snapshots (fs : VFS) (p : Str) (c : List Nat) :
    (writeFileInternal fs p c).1.snapshots = fs.snapshots := by
  rw [writeFileInternal]
  split
  · rfl
  · rename_i r heq
    split
    · rename_i fs1 e h1
      have := createDirectory_snapshots fs r.parentPath true
      rw [h1] at this
      exact this
    · rename_i fs1 u h1
      have hcd : fs1.snapshots = fs.snapshots := by
        have := createDirectory_snapshots fs r.parentPath true
        rw [h1] at this
        exact this
      split
      · exact hcd
      · split
        · exact hcd
        · rw [modifyDir_snapshots]
          exact hcd
        · split
          · exact hcd
          · split
            · rw [setNode_snapshots]
              exact hcd
            · rw [modifyDir_snapshots]
              exact hcd
          · rw [modifyDir_snapshots]
            exact hcd
        · rw [modifyDir_snapshots]
          exact hcd

theorem writeFile_snapshots (fs : VFS) (p : Str) (c : List Nat) :
    (writeFile fs p c).1.snapshots = fs.snapshots :=
  writeFileInternal_snapshots fs p c

theorem appendFile_snapshots (fs : VFS) (p : Str) (c : List Nat) :
    (appendFile fs p c).1.snapshots = fs.snapshots := by
  rw [appendFile]
  split
  · rfl
  · exact writeFile_snapshots ..
  · split
    · exact setNode_snapshots ..
    · rfl

theorem deleteFile_snapshots (fs : VFS) (p : Str) :
    (deleteFile fs p).1.snapshots = fs.snapshots := by
  rw [deleteFile]
  split
  · rfl
  · split
    · rfl
    · split
      · rfl
      · rfl
      · exact modifyDir_snapshots ..

theorem deleteDirectory_snapshots (fs : VFS) (p : Str) (recursive : Bool) :
    (deleteDirectory fs p recursive).1.snapshots = fs.snapshots := by
  rw [deleteDirectory]
  split
  · rfl
  · split
    · split
      · rfl
      · rfl
    · split
      · rfl
      · split
        · rfl
        · rfl
        · rfl
        · split
          · rfl
          · exact modifyDir_snapshots ..

theorem copyFile_snapshots (fs : VFS) (src dst : Str) :
    (copyFile fs src dst).1.snapshots = fs.snapshots := by
  rw [copyFile]
  split
  · rfl
  · exact writeFile_snapshots ..

theorem moveFile_snapshots (fs : VFS) (src dst : Str) :
    (moveFile fs src dst).1.snapshots = fs.snapshots := by
  rw [moveFile]
  split
  · rename_i fs1 e h1
    have := copyFile_snapshots fs src dst
    rw [h1] at this
    exact this
  · rename_i fs1 u h1
    have := copyFile_snapshots fs src dst
    rw [h1] at this
    rw [deleteFile_snapshots]
    exact this

theorem writeFileAtomic_snapshots (fs : VFS) (p : Str) (c : List Nat) (suf : Str) :
    (writeFileAtomic fs p c suf).1.snapshots = fs.snapshots := by
  rw [writeFileAtomic]
  split
  · rename_i fs1 e h1
    have := writeFileInternal_snapshots fs (p ++ suf) c
    rw [h1] at this
    exact this
  · rename_i fs1 u h1
    have := writeFileInternal_snapshots fs (p ++ suf) c
    rw [h1] at this
    rw [moveFile_snapshots]
    exact this

theorem createSymlink_snapshots (fs : VFS) (target linkPath : Str) :
    (createSymlink fs target linkPath).1.snapshots = fs.snapshots := by
  rw [createSymlink]
  split
  · rfl
  · rename_i r heq
    split
    · rename_i fs1 e h1
      have := createDirectory_snapshots fs r.parentPath true
      rw [h1] at this
      exact this
    · rename_i fs1 u h1
      have hcd : fs1.snapshots = fs.snapshots := by
        have := createDirectory_snapshots fs r.parentPath true
        rw [h1] at this
        exact this
      split
      · exact hcd
      · split
        · exact hcd
        · rw [modifyDir_snapshots]
          exact hcd

theorem restoreSnapshot_snapshots (fs : VFS) (id : Str) :
    (restoreSnapshot fs id).1.snapshots = fs.snapshots := by
  rw [restoreSnapshot]
  split
  · rfl
  · rfl

theorem applyOp_snapshots (fs : VFS) (op : MOp) :
    (applyOp fs op).snapshots = fs.snapshots := by
  cases op with
  | write p c => exact writeFile_snapshots ..
  | writeAtomic p c suf => exact writeFileAtomic_snapshots ..
  | append p c => exact appendFile_snapshots ..
  | deleteF p => exact deleteFile_snapshots ..
  | mkdir p r => exact createDirectory_snapshots ..
  | rmdir p r => exact deleteDirectory_snapshots ..
  | mklink t p => exact createSymlink_snapshots ..
  | move a b => exact moveFile_snapshots ..
  | copy a b => exact copyFile_snapshots ..
  | restore id => exact restoreSnapshot_snapshots ..

theorem applyOps_snapshots (ops : List MOp) :
    ∀ fs, (applyOps fs ops).snapshots = fs.snapshots := by
  induction ops with
  | nil => intro fs; rfl
  | cons op rest ih =>
    intro fs
    rw [applyOps, ih, applyOp_snapshots]

theorem assocGet_assocSet {α : Type} (m : List (Str × α)) (k : Str) (v : α) :
    assocGet (assocSet m k v) k = some v := by
  induction m with
  | nil => simp [assocGet, assocSet]
  | cons e rest ih =>
    rw [assocSet]
    by_cases hk : e.1 = k
    · rw [if_pos hk, assocGet, if_pos rfl]
    · rw [if_neg hk, assocGet, if_neg hk]
      exact ih

theorem setChild_append (cs : List (Str × VNode)) (n : Str) (v : VNode)
    (h : ∀ e ∈ cs, e.1 ≠ n) : setChild cs n v = cs ++ [(n, v)] := by
  induction cs with
  | nil => rfl
  | cons e rest ih =>
    rw [setChild]
    rcases e with ⟨k, w⟩
    rw [if_neg (h (k, w) (List.mem_cons_self _ _))]
    rw [ih (fun e he => h e (List.mem_cons_of_mem _ he))]
    rfl

theorem foldl_setChild (l : List (Str × VNode)) :
    ∀ acc, (∀ e ∈ acc, ∀ e2 ∈ l, e.1 ≠ e2.1) → (l.map Prod.fst).Nodup →
      l.foldl (fun a e => setChild a e.1 e.2) acc = acc ++ l := by
  induction l with
  | nil => intro acc _ _; simp
  | cons e rest ih =>
    intro acc hdisj hnd
    rw [List.foldl_cons]
    rw [setChild_append acc e.1 e.2 (fun e2 he2 => hdisj e2 he2 e (List.mem_cons_self _ _))]
    rw [List.map_cons, List.nodup_cons] at hnd
    rw [ih (acc ++ [(e.1, e.2)]) ?_ hnd.2]
    · simp
    · intro e2 he2 e3 he3
      rcases List.mem_append.mp he2 with h2 | h2
      · exact hdisj e2 h2 e3 (List.mem_cons_of_mem _ he3)
      · have he2e : e2 = (e.1, e.2) := by simpa using h2
        rw [he2e]
        intro hcon
        exact hnd.1 (hcon ▸ List.mem_map_of_mem Prod.fst he3)

theorem restoreSnapshot_rootChildren (fs : VFS) (id : Str) (stored : List (Str × VNode))
    (hget : assocGet fs.snapshots id = some stored)
    (hnd : (stored.map Prod.fst).Nodup) :
    restoreSnapshot fs id = (setRoot fs stored, .ok ()) := by
  rw [restoreSnapshot, hget]
  simp only []
  rw [foldl_setChild stored [] (fun e he e2 he2 => absurd he (List.not_mem_nil e)) hnd]
  rfl

/-- C5: a snapshot is never mutated after `createSnapshot`: for every
sequence of mutating operations (including any number of `restoreSnapshot`
calls), the stored tree of the created snapshot is still exactly the root
tree from snapshot time, and restoring it replaces the live root children
with exactly that tree. -/
theorem c5_snapshot_immutable_and_restorable (fs : VFS) (ops : List MOp)
    (hnd : (fs.rootChildren.map Prod.fst).Nodup) :
    assocGet (applyOps (createSnapshot fs).1 ops).snapshots (createSnapshot fs).2 =
      some fs.rootChildren ∧
    restoreSnapshot (applyOps (createSnapshot fs).1 ops) (createSnapshot fs).2 =
      (setRoot (applyOps (createSnapshot fs).1 ops) fs.rootChildren, .ok ()) := by
  have hget : assocGet (applyOps (createSnapshot fs).1 ops).snapshots (createSnapshot fs).2 =
      some fs.rootChildren := by
    rw [applyOps_snapshots]
    exact assocGet_assocSet ..
  exact ⟨hget, restoreSnapshot_rootChildren _ _ _ hget hnd⟩

/-- C5 witness: snapshot a one-file tree, overwrite the file and add another,
then check the stored tree and the restore result. -/
theorem c5_snapshot_immutable_and_restorable_witness :
    (((⟨[(str "f", .file [1])], 40, [], 0⟩ : VFS).rootChildren.map Prod.fst).Nodup) ∧
    (assocGet (applyOps (createSnapshot ⟨[(str "f", .file [1])], 40, [], 0⟩).1
        [.write (str "/f") [2], .write (str "/g") [3]]).snapshots
        (createSnapshot ⟨[(str "f", .file [1])], 40, [], 0⟩).2 =
      some [(str "f", .file [1])] ∧
     restoreSnapshot (applyOps (createSnapshot ⟨[(str "f", .file [1])], 40, [], 0⟩).1
        [.write (str "/f") [2], .write (str "/g") [3]])
        (createSnapshot ⟨[(str "f", .file [1])], 40, [], 0⟩).2 =
      (setRoot (applyOps (createSnapshot ⟨[(str "f", .file [1])], 40, [], 0⟩).1
        [.write (str "/f") [2], .write (str "/g") [3]]) [(str "f", .file [1])], .ok ())) :=
  ⟨by decide,
   c5_snapshot_immutable_and_restorable ⟨[(str "f", .file [1])], 40, [], 0⟩
     [.write (str "/f") [2], .write (str "/g") [3]] (by decide)⟩

/- ===================== claim C8 ===================== -/

theorem drop_cwd_slash (cwd x : Str) : (cwd ++ '/' :: x).drop (cwd.length + 1) = x := by
  rw [show cwd ++ '/' :: x = (cwd ++ ['/']) ++ x from by simp]
  rw [show cwd.length + 1 = (cwd ++ ['/']).length from by simp]
  exact List.drop_left _ _

theorem normalizePath_ne_nil (p : Str) : normalizePath p ≠ [] := by
  rw [normalizePath]
  split
  · simp
  · have hgen : ∀ (b : Bool) (core : Str),
      (if (if b then '/' :: core else core) = [] then (if b then ['/'] else ['.'])
       else (if b then '/' :: core else core)) ≠ [] := by
      intro b core
      cases b <;> cases core <;> simp
    exact hgen _ _

theorem relPath_code_eq_spec (cwd cp name : Str) (hcwd : cwd ≠ ['/']) (hne : cwd ≠ [])
    (hcp : cp = cwd ∨ ∃ s, cp = cwd ++ '/' :: s) :
    (if (if cp = ['/'] then '/' :: name else cp ++ '/' :: name).drop (cwd.length + 1) = []
     then name
     else (if cp = ['/'] then '/' :: name else cp ++ '/' :: name).drop (cwd.length + 1)) =
    relPathSpec cwd (if cp = ['/'] then '/' :: name else cp ++ '/' :: name) := by
  have hcpne : cp ≠ ['/'] := by
    rcases hcp with h | ⟨s, h⟩
    · rw [h]; exact hcwd
    · rw [h]
      intro hcon
      have hlen := congrArg List.length hcon
      have h1 : 0 < cwd.length := List.length_pos.mpr hne
      simp at hlen
      omega
  rw [if_neg hcpne, relPathSpec, if_neg hcwd]
  rcases hcp with h | ⟨s, h⟩
  · subst h
    rw [drop_cwd_slash]
    by_cases hn : name = []
    · rw [if_pos hn, hn]
    · rw [if_neg hn]
  · subst h
    rw [show cwd ++ '/' :: s ++ '/' :: name = cwd ++ '/' :: (s ++ '/' :: name) from by simp]
    rw [drop_cwd_slash]
    rw [if_neg (by simp)]

theorem cpOK_extend (cwd cp name : Str) (hcp : cp = cwd ∨ ∃ s, cp = cwd ++ '/' :: s)
    (hcpne : cp ≠ ['/']) :
    (if cp = ['/'] then '/' :: name else cp ++ '/' :: name) = cwd ∨
      ∃ s, (if cp = ['/'] then '/' :: name else cp ++ '/' :: name) = cwd ++ '/' :: s := by
  rw [if_neg hcpne]
  right
  rcases hcp with h | ⟨s, h⟩
  · exact ⟨name, by rw [h]⟩
  · exact ⟨s ++ '/' :: name, by rw [h]; simp⟩

theorem globKids_nil (fs : VFS) (toks : List GTok) (o : GlobOpts) (cwd : Str) (fuel : Nat)
    (cp : Str) (depth : Nat) : globKids fs toks o cwd fuel [] cp depth = .ok [] := by
  rw [globKids]

theorem globKidsSpec_nil (fs : VFS) (toks : List GTok) (o : GlobOpts) (cwd : Str) (fuel : Nat)
    (cp : Str) (depth : Nat) : globKidsSpec fs toks o cwd fuel [] cp depth = .ok [] := by
  rw [globKidsSpec]

theorem globTraverse_zero (fs : VFS) (toks : List GTok) (o : GlobOpts) (cwd : Str)
    (cs : List (Str × VNode)) (cp : Str) (depth : Nat) :
    globTraverse fs toks o cwd 0 cs cp depth = .error .symlinkLoop := by
  rw [globTraverse]

theorem globTraverseSpec_zero (fs : VFS) (toks : List GTok) (o : GlobOpts) (cwd : Str)
    (cs : List (Str × VNode)) (cp : Str) (depth : Nat) :
    globTraverseSpec fs toks o cwd 0 cs cp depth = .error .symlinkLoop := by
  rw [globTraverseSpec]

theorem globTraverse_succ (fs : VFS) (toks : List GTok) (o : GlobOpts) (cwd : Str) (f : Nat)
    (cs : List (Str × VNode)) (cp : Str) (depth : Nat) :
    globTraverse fs toks o cwd (f + 1) cs cp depth =
      if depthExceeded depth o.maxDepth then .ok []
      else globKids fs toks o cwd f cs cp depth := by
  rw [globTraverse]

theorem globTraverseSpec_succ (fs : VFS) (toks : List GTok) (o : GlobOpts) (cwd : Str) (f : Nat)
    (cs : List (Str × VNode)) (cp : Str) (depth : Nat) :
    globTraverseSpec fs toks o cwd (f + 1) cs cp depth =
      if depthExceeded depth o.maxDepth then .ok []
      else globKidsSpec fs toks o cwd f cs cp depth := by
  rw [globTraverseSpec]

theorem globKids_cons (fs : VFS) (toks : List GTok) (o : GlobOpts) (cwd : Str) (fuel : Nat)
    (name : Str) (node : VNode) (rest : List (Str × VNode)) (cp : Str) (depth : Nat)
    (np rp : Str) (hnp : np = if cp = ['/'] then '/' :: name else cp ++ '/' :: name)
    (hrp : rp = if np.drop (cwd.length + 1) = [] then name else np.drop (cwd.length + 1)) :
    globKids fs toks o cwd fuel ((name, node) :: rest) cp depth =
      (if o.dot = false ∧ name.head? = some '.' then globKids fs toks o cwd fuel rest cp depth
       else if matchesIgnore np o.ignore then globKids fs toks o cwd fuel rest cp depth
       else
         match (match node with
           | .symlink _ =>
             if o.followSymlinks then
               (match resolveLoc fs np true with
               | .error e => .error e
               | .ok none => .ok none
               | .ok (some loc) => .ok (nodeAtLoc fs loc) : Except VErr (Option VNode))
             else .ok (some node)
           | _ => (.ok (some node) : Except VErr (Option VNode))) with
         | .error e => .error e
         | .ok none => globKids fs toks o cwd fuel rest cp depth
         | .ok (some effectiveNode) =>
           match effectiveNode with
           | .dir cs2 =>
             match globTraverse fs toks o cwd fuel cs2 np (depth + 1) with
             | .error e => .error e
             | .ok sub =>
               match globKids fs toks o cwd fuel rest cp depth with
               | .error e => .error e
               | .ok tail =>
                 .ok ((if gmatch toks rp then
                     if (!o.onlyFiles && !o.onlyDirectories)
                         || (o.onlyFiles && effectiveNode.isFileN)
                         || (o.onlyDirectories && effectiveNode.isDir) then
                       [if o.absolute then np else rp]
                     else []
                   else []) ++ sub ++ tail)
           | _ =>
             match globKids fs toks o cwd fuel rest cp depth with
             | .error e => .error e
             | .ok tail =>
               .ok ((if gmatch toks rp then
                   if (!o.onlyFiles && !o.onlyDirectories)
                       || (o.onlyFiles && effectiveNode.isFileN)
                       || (o.onlyDirectories && effectiveNode.isDir) then
                     [if o.absolute then np else rp]
                   else []
                 else []) ++ tail)) := by
  subst hrp
  subst hnp
  rw [globKids.eq_def]

theorem globKidsSpec_cons (fs : VFS) (toks : List GTok) (o : GlobOpts) (cwd : Str) (fuel : Nat)
    (name : Str) (node : VNode) (rest : List (Str × VNode)) (cp : Str) (depth : Nat)
    (np rp : Str) (hnp : np = if cp = ['/'] then '/' :: name else cp ++ '/' :: name)
    (hrp : rp = relPathSpec cwd np) :
    globKidsSpec fs toks o cwd fuel ((name, node) :: rest) cp depth =
      (if o.dot = false ∧ name.head? = some '.' then globKidsSpec fs toks o cwd fuel rest cp depth
       else if matchesIgnore np o.ignore then globKidsSpec fs toks o cwd fuel rest cp depth
       else
         match (match node with
           | .symlink _ =>
             if o.followSymlinks then
               (match resolveLoc fs np true with
               | .error e => .error e
               | .ok none => .ok none
               | .ok (some loc) => .ok (nodeAtLoc fs loc) : Except VErr (Option VNode))
             else .ok (some node)
           | _ => (.ok (some node) : Except VErr (Option VNode))) with
         | .error e => .error e
         | .ok none => globKidsSpec fs toks o cwd fuel rest cp depth
         | .ok (some effectiveNode) =>
           match effectiveNode with
           | .dir cs2 =>
             match globTraverseSpec fs toks o cwd fuel cs2 np (depth + 1) with
             | .error e => .error e
             | .ok sub =>
               match globKidsSpec fs toks o cwd fuel rest cp depth with
               | .error e => .error e
               | .ok tail =>
                 .ok ((if gmatch toks rp then
                     if (!o.onlyFiles && !o.onlyDirectories)
                         || (o.onlyFiles && effectiveNode.isFileN)
                         || (o.onlyDirectories && effectiveNode.isDir) then
                       [if o.absolute then np else rp]
                     else []
                   else []) ++ sub ++ tail)
           | _ =>
             match globKidsSpec fs toks o cwd fuel rest cp depth with
             | .error e => .error e
             | .ok tail =>
               .ok ((if gmatch toks rp then
                   if (!o.onlyFiles && !o.onlyDirectories)
                       || (o.onlyFiles && effectiveNode.isFileN)
                       || (o.onlyDirectories && effectiveNode.isDir) then
                     [if o.absolute then np else rp]
                   else []
                 else []) ++ tail)) := by
  subst hrp
  subst hnp
  rw [globKidsSpec.eq_def]

theorem globKids_eq_spec_of (fs : VFS) (toks : List GTok) (o : GlobOpts) (cwd : Str)
    (hcwd : cwd ≠ ['/']) (hne : cwd ≠ []) (fuel : Nat)
    (htrav : ∀ cs cp depth, (cp = cwd ∨ ∃ s, cp = cwd ++ '/' :: s) →
      globTraverse fs toks o cwd fuel cs cp depth =
        globTraverseSpec fs toks o cwd fuel cs cp depth) :
    ∀ cs cp depth, (cp = cwd ∨ ∃ s, cp = cwd ++ '/' :: s) →
      globKids fs toks o cwd fuel cs cp depth = globKidsSpec fs toks o cwd fuel cs cp depth := by
  intro cs
  induction cs with
  | nil =>
    intro cp depth hcp
    rw [globKids_nil, globKidsSpec_nil]
  | cons child rest ih =>
    intro cp depth hcp
    rcases child with ⟨name, node⟩
    have hcpne : cp ≠ ['/'] := by
      rcases hcp with h | ⟨s, h⟩
      · rw [h]; exact hcwd
      · rw [h]
        intro hcon
        have hlen := congrArg List.length hcon
        have h1 : 0 < cwd.length := List.length_pos.mpr hne
        simp at hlen
        omega
    have hext := cpOK_extend cwd cp name hcp hcpne
    have hrest : globKids fs toks o cwd fuel rest cp depth =
        globKidsSpec fs toks o cwd fuel rest cp depth := ih cp depth hcp
    rw [globKids_cons fs toks o cwd fuel name node rest cp depth _ _ rfl rfl,
        globKidsSpec_cons fs toks o cwd fuel name node rest cp depth _ _ rfl rfl,
        ← relPath_code_eq_spec cwd cp name hcwd hne hcp]
    by_cases h1 : o.dot = false ∧ name.head? = some '.'
    · rw [if_pos h1, if_pos h1, hrest]
    · rw [if_neg h1, if_neg h1]
      by_cases h2 :
          matchesIgnore (if cp = ['/'] then '/' :: name else cp ++ '/' :: name) o.ignore = true
      · rw [if_pos h2, if_pos h2, hrest]
      · rw [if_neg h2, if_neg h2]
        cases node with
        | file c =>
          dsimp only
          rw [hrest]
        | dir cs2 =>
          dsimp only
          rw [htrav cs2 _ (depth + 1) hext, hrest]
        | symlink target =>
          dsimp only
          by_cases h3 : o.followSymlinks = true
          · rw [if_pos h3]
            cases hr : resolveLoc fs (if cp = ['/'] then '/' :: name else cp ++ '/' :: name) true with
            | error e => rfl
            | ok oloc =>
              cases oloc with
              | none =>
                dsimp only
                exact hrest
              | some loc =>
                dsimp only
                cases hn : nodeAtLoc fs loc with
                | none =>
                  dsimp only
                  exact hrest
                | some eff =>
                  cases eff with
                  | file c =>
                    dsimp only
                    rw [hrest]
                  | dir cs2 =>
                    dsimp only
                    rw [htrav cs2 _ (depth + 1) hext, hrest]
                  | symlink t2 =>
                    dsimp only
                    rw [hrest]
          · rw [if_neg h3]
            dsimp only
            rw [hrest]

theorem globTraverse_eq_spec (fs : VFS) (toks : List GTok) (o : GlobOpts) (cwd : Str)
    (hcwd : cwd ≠ ['/']) (hne : cwd ≠ []) :
    ∀ fuel cs cp depth, (cp = cwd ∨ ∃ s, cp = cwd ++ '/' :: s) →
      globTraverse fs toks o cwd fuel cs cp depth =
        globTraverseSpec fs toks o cwd fuel cs cp depth := by
  intro fuel
  induction fuel with
  | zero =>
    intro cs cp depth hcp
    rw [globTraverse_zero, globTraverseSpec_zero]
  | succ f ih =>
    intro cs cp depth hcp
    rw [globTraverse_succ, globTraverseSpec_succ]
    by_cases hd : depthExceeded depth o.maxDepth = true
    · rw [if_pos hd, if_pos hd]
    · rw [if_neg hd, if_neg hd]
      exact globKids_eq_spec_of fs toks o cwd hcwd hne f ih cs cp depth hcp

/-- `ab` compiles to two literal tokens. -/
theorem gtokenize_lit_ab : gtokenize ['a', 'b'] = [.lit 'a', .lit 'b'] := rfl

set_option maxHeartbeats 4000000 in
set_option synthInstance.maxHeartbeats 1000000 in
/-- Counterexample to C8 at `cwd = '/'`: the tree holds the single file
`/ab` and the pattern is `ab`.  The spec's relative path of `/ab` under `/`
is `ab`, which the compiled pattern matches, yet `glob` returns no results:
the source computes `nodePath.slice(cwd.length + 1) = '/ab'.slice(2) = 'b'`
(cwd `'/'` already ends in the separator, so one character of the name is
dropped) and tests the pattern against `'b'`.  The spec-modelled `globSpec`
returns `/ab`. -/
theorem c8_counterexample_root_cwd_drops_a_character :
    glob ⟨[(str "ab", .file [104])], 40, [], 0⟩ (str "ab") {} 2 = .ok [] ∧
    gmatch (gtokenize (str "ab")) (relPathSpec (str "/") (str "/ab")) = true ∧
    globSpec ⟨[(str "ab", .file [104])], 40, [], 0⟩ (str "ab") {} 2 = .ok [str "/ab"] := by
  refine ⟨?_, ?_, ?_⟩
  · simp [glob, globTraverse, globKids, gtokenize_lit_ab, gmatch, matchesIgnore, depthExceeded,
      sortStrs, insertSorted, strLe, relPathSpec, resolveLoc, resolveLocFuel, walkLoc,
      resolvePath, validatePath, normalizePath, str, splitPath, splitSlash, collapse, replBS,
      dd, procParts, joinSegs, dirname, basename, lastSlashIdx, lastSlashIdxAux, segValid,
      isCtl, nodeAtLoc, nodeAt, getChild, reservedNames, VFS.rootNode]
  · simp [gtokenize_lit_ab, gmatch, relPathSpec, str]
  · simp [globSpec, globTraverseSpec, globKidsSpec, gtokenize_lit_ab, gmatch, matchesIgnore,
      depthExceeded, sortStrs, insertSorted, strLe, relPathSpec, resolveLoc, resolveLocFuel,
      walkLoc, resolvePath, validatePath, normalizePath, str, splitPath, splitSlash, collapse,
      replBS, dd, procParts, joinSegs, dirname, basename, lastSlashIdx, lastSlashIdxAux,
      segValid, isCtl, nodeAtLoc, nodeAt, getChild, reservedNames, VFS.rootNode]

/-- **C8** (amended): for every glob call whose `cwd` option is given and
does not normalize to the root `'/'`, the traversal reports exactly the
spec's results: every visited node passing the dotfile, ignore and type
filters is included iff the compiled pattern matches its path relative to
`cwd` (the full path with the `cwd` prefix and its trailing separator
removed), i.e. `glob` agrees with the spec-modelled `globSpec`, which is
`glob` with the relative path computed as `relPathSpec`.  At `cwd = '/'`
the source instead tests the pattern against `nodePath.slice(2)`, which
drops the first character of the spec's relative path (see
`c8_counterexample_root_cwd_drops_a_character`). -/
theorem c8_glob_relative_path_matches_spec_off_root (fs : VFS) (pattern : Str) (o : GlobOpts)
    (fuel : Nat) (c : Str) (hc : o.cwd = some c) (hroot : normalizePath c ≠ ['/']) :
    glob fs pattern o fuel = globSpec fs pattern o fuel := by
  simp only [glob, globSpec, hc]
  cases hr : resolveLoc fs (normalizePath c) true with
  | error e => rfl
  | ok oloc =>
    cases oloc with
    | none => rfl
    | some loc =>
      dsimp only
      cases hn : nodeAtLoc fs loc with
      | none => rfl
      | some nd =>
        cases nd with
        | file cc => rfl
        | symlink t => rfl
        | dir cs =>
          dsimp only
          rw [globTraverse_eq_spec fs (gtokenize pattern) o (normalizePath c) hroot
            (normalizePath_ne_nil c) fuel cs (normalizePath c) 0 (Or.inl rfl)]

/-- Witness for the amended C8 theorem: a concrete store with `cwd = /src`. -/
theorem c8_glob_relative_path_matches_spec_off_root_witness :
    glob ⟨[(str "src", .dir [(str "ab", .file [104])])], 40, [], 0⟩ (str "ab")
        ⟨some (str "/src"), none, false, false, true, false, true, []⟩ 2 =
      globSpec ⟨[(str "src", .dir [(str "ab", .file [104])])], 40, [], 0⟩ (str "ab")
        ⟨some (str "/src"), none, false, false, true, false, true, []⟩ 2 :=
  c8_glob_relative_path_matches_spec_off_root
    ⟨[(str "src", .dir [(str "ab", .file [104])])], 40, [], 0⟩ (str "ab")
    ⟨some (str "/src"), none, false, false, true, false, true, []⟩ 2 (str "/src") rfl
    (by decide)
